import Mathlib

/-!
Verification of two cores of the repository:

* Core B, the Git-style binary delta encoder
  (`src/eden/mononoke/git/git_types/src/delta.rs`): instruction model,
  byte-exact serializer, variable-length size codec, and the diff-sink
  delta generator.
* Core A, the tiered entity cache
  (`src/eden/mononoke/common/rust/caching_ext/src/lib.rs`): the
  read-through `get_or_fill` coordinator over a fast tier (cachelib),
  a shared tier (memcache) and a backing store.

Machine integers (`u8`, `u32`, `usize`) are modelled as `Nat`, with
explicit `% 2 ^ 32` where the source performs an `as u32` truncation and
an explicit saturating addition where the source uses `saturating_add`.
Byte sequences are `List Nat`.  Fallible Rust functions return
`Except String`; a Rust panic (out-of-bounds slice, `expect`) is
modelled as `Option.none` at the point where it can occur.
-/

/-! ### Delta core: constants (delta.rs lines 24-39) -/

/-- Maximum number of raw bytes within a single Data instruction. -/
def MAX_DATA_BYTES : Nat := (1 <<< 7) - 1

/-- Maximum number of bytes a single Copy instruction can copy. -/
def MAX_COPY_BYTES : Nat := (1 <<< 24) - 1

/-- Flag bit marking that more bytes follow in the size encoding. -/
def CONTINUATION_BITMASK : Nat := 1 <<< 7

/-- Flag identifying a Copy instruction (high bit of the command byte). -/
def COPY_INSTRUCTION : Nat := 1 <<< 7

/-- Bitmask for the 7 data bits of a size-encoding byte. -/
def DATA_BITMASK : Nat := (1 <<< 7) - 1

/-- Copy size which Git encodes specially (as an absent size). -/
def COPY_SPECIAL_SIZE : Nat := 1 <<< 16

/-! ### Delta instruction model (delta.rs lines 41-84) -/

/-- `DeltaInstruction` from delta.rs: either raw data bytes from the new
object, or a copy of `size` bytes starting at `base_offset` in the base. -/
inductive DeltaInstruction where
  | Data (bytes : List Nat)
  | Copy (base_offset : Nat) (size : Nat)
deriving Repr, DecidableEq

/-- `DeltaInstruction::from_data` (delta.rs lines 54-61): fails only when
the data is longer than `MAX_DATA_BYTES`. -/
def from_data (data : List Nat) : Except String DeltaInstruction :=
  if data.length > MAX_DATA_BYTES then
    .error "Encountered invalid data instruction size"
  else
    .ok (.Data data)

/-- `DeltaInstruction::from_copy` (delta.rs lines 63-84): the argument is
the range `start..stop` (of `u32`s); fails on an empty range and on a
range longer than `MAX_COPY_BYTES`. -/
def from_copy (start stop : Nat) : Except String DeltaInstruction :=
  if stop ≤ start then
    .error "Encountered empty range for copy instruction"
  else
    if stop - start > MAX_COPY_BYTES then
      .error "Encountered invalid size for copy instruction"
    else
      .ok (.Copy start (stop - start))

/-- The four little-endian bytes of a `u32` (`to_le_bytes`). -/
def leBytes4 (n : Nat) : List Nat :=
  [n % 256, n / 256 % 256, n / 65536 % 256, n / 16777216 % 256]

/-- The flag word of a byte list: bit `i` is set iff the `i`-th byte is
nonzero.  Models the loop in `DeltaInstruction::write` that sets
`instruction_byte |= 1 << idx` for each nonzero byte (delta.rs 122-126). -/
def flagBits : List Nat → Nat
  | [] => 0
  | b :: rest => (if b ≠ 0 then 1 else 0) + 2 * flagBits rest

/-- `DeltaInstruction::write` (delta.rs lines 86-146) as the byte list the
instruction flushes to the writer.  A Data instruction writes its length
(`as u8`) then the raw bytes.  A Copy instruction writes a command byte
(`COPY_INSTRUCTION` or-ed with the nonzero-byte flags of the four
little-endian offset bytes chained with the four little-endian bytes of
the encoded size), then the nonzero offset bytes, then the nonzero size
bytes; size 65536 is encoded as size 0. -/
def instructionBytes : DeltaInstruction → List Nat
  | .Data bytes => (bytes.length % 256) :: bytes
  | .Copy base_offset size =>
    let offset_bytes := leBytes4 base_offset
    let sizev := if size = COPY_SPECIAL_SIZE then 0 else size
    let size_bytes := leBytes4 sizev
    let instruction_byte := COPY_INSTRUCTION ||| flagBits (offset_bytes ++ size_bytes)
    instruction_byte ::
      (offset_bytes.filter (fun b => b ≠ 0) ++ size_bytes.filter (fun b => b ≠ 0))

/-- `DeltaInstructions::write_instructions` (delta.rs lines 205-210): each
instruction flushes its own buffer in order, so the body is the
concatenation of the per-instruction byte lists. -/
def serializeBody (instrs : List DeltaInstruction) : List Nat :=
  (instrs.map instructionBytes).flatten

/-! ### Variable-length size codec (delta.rs lines 446-473) -/

/-- The loop of `write_size`: `byte` is the already-extracted low 7 bits,
`size` the remaining value.  While `size` is nonzero the pending byte is
emitted with the continuation bit set and the next 7 bits are taken. -/
def writeSizeLoop (byte : Nat) (size : Nat) : List Nat :=
  if size = 0 then [byte]
  else (byte ||| CONTINUATION_BITMASK) :: writeSizeLoop (size % 128) (size / 128)
termination_by size
decreasing_by exact Nat.div_lt_self (Nat.pos_of_ne_zero (by assumption)) (by decide)

/-- `write_size` (delta.rs lines 450-473): little-endian base-128 with a
continuation bit.  `size &&& DATA_BITMASK = size % 128` and
`size >>> 7 = size / 128`. -/
def write_size (size_to_write : Nat) : List Nat :=
  writeSizeLoop (size_to_write % 128) (size_to_write / 128)

/-- Modelled from the spec: the decoder of §4.3 is not part of the
repository sources; per the spec it accumulates 7-bit chunks shifted by
increasing multiples of 7 until a byte with clear high bit is consumed
(all bytes produced by `write_size` are below 256, for which a clear high
bit is exactly being below 128).  Returns the decoded value and the
unconsumed remainder of the input. -/
def readSize : List Nat → Nat → Nat → Option (Nat × List Nat)
  | [], _, _ => none
  | b :: rest, shift, acc =>
    if b < 128 then some (acc + (b % 128) * 2 ^ shift, rest)
    else readSize rest (shift + 7) (acc + (b % 128) * 2 ^ shift)

/-! ### Delta generator state machine (delta.rs lines 164-416)

`DeltaInstructions::generate` drives an external byte-level diff engine
(the `gix_diff` crate) over `(base_object, new_object)` and feeds the
reported change events into the `Sink` implementation of
`FallibleDeltaInstructions`.  The sink is embedded below; the external
engine is modelled by quantifying over the list of change events it
reports, and its documented contract is captured by the `DiffOk`
predicate further down. -/

/-- `DeltaInstructions` (delta.rs lines 166-172). -/
structure DeltaState where
  base_object : List Nat
  new_object : List Nat
  processed_till : Nat
  instructions : List DeltaInstruction
deriving Repr, DecidableEq

/-- `FallibleDeltaInstructions` (delta.rs lines 228-235), extended with a
`panicked` constructor marking the one place the sink can panic: the
out-of-bounds `Bytes::slice` in `add_data`. -/
inductive Fallible where
  | valid (st : DeltaState)
  | invalid (e : String)
  | panicked
deriving Repr, DecidableEq

/-- `FallibleDeltaInstructions::add_copy` (delta.rs lines 246-264): on a
valid state, push the copy instruction for `start..stop` and advance
`processed_till` to `stop`; an invalid instruction invalidates the state;
an already-invalid state is unchanged. -/
def add_copy (f : Fallible) (start stop : Nat) : Fallible :=
  match f with
  | .valid st =>
    match from_copy start stop with
    | .ok ins => .valid { st with instructions := st.instructions ++ [ins],
                                  processed_till := stop }
    | .error e => .invalid e
  | .invalid e => .invalid e
  | .panicked => .panicked

/-- `FallibleDeltaInstructions::add_data` (delta.rs lines 266-285): on a
valid state, slice `new_object[start..stop]` (panicking if the range is
invalid for the object, like `Bytes::slice`) and push the data
instruction; an invalid instruction invalidates the state. -/
def add_data (f : Fallible) (start stop : Nat) : Fallible :=
  match f with
  | .valid st =>
    if start ≤ stop ∧ stop ≤ st.new_object.length then
      match from_data ((st.new_object.drop start).take (stop - start)) with
      | .ok ins => .valid { st with instructions := st.instructions ++ [ins] }
      | .error e => .invalid e
    else .panicked
  | .invalid e => .invalid e
  | .panicked => .panicked

/-- `FallibleDeltaInstructions::update_processed_till` (delta.rs 287-297). -/
def update_processed_till (f : Fallible) (new_processed_till : Nat) : Fallible :=
  match f with
  | .valid st => .valid { st with processed_till := new_processed_till }
  | .invalid e => .invalid e
  | .panicked => .panicked

/-- `u32::saturating_add`. -/
def satAdd32 (a b : Nat) : Nat := min (a + b) (2 ^ 32 - 1)

/-- The copy-chunking loop shared by `process_change` (delta.rs 334-342)
and `finish` (delta.rs 398-406):
`for subrange_start in (lo..hi).step_by(MAX_COPY_BYTES) { copied_till =
min(hi, subrange_start.saturating_add(MAX_COPY_BYTES)); add_copy(...) }`.
Returns the state and the final value of `copied_till`. -/
def copyLoop (f : Fallible) (subrange_start hi copied_till : Nat) :
    Fallible × Nat :=
  if subrange_start < hi then
    let c := min hi (satAdd32 subrange_start MAX_COPY_BYTES)
    copyLoop (add_copy f subrange_start c) (subrange_start + MAX_COPY_BYTES) hi c
  else (f, copied_till)
termination_by hi - subrange_start
decreasing_by have h : 0 < MAX_COPY_BYTES := by decide
              omega

/-- Copy emission for the gap `lo..hi`: the loop above starting from
`copied_till = lo`, then the trailing
`if copied_till < hi { add_copy(copied_till..hi) }` (delta.rs 343-346,
407-410). -/
def emitCopies (f : Fallible) (lo hi : Nat) : Fallible :=
  match copyLoop f lo hi lo with
  | (f', copied_till) => if copied_till < hi then add_copy f' copied_till hi else f'

/-- The data-chunking loop of `process_change` (delta.rs 354-362):
`for subrange_start in after.step_by(MAX_DATA_BYTES) { written_till =
min(after.end, subrange_start.saturating_add(MAX_DATA_BYTES));
add_data(...) }`. -/
def dataLoop (f : Fallible) (subrange_start hi written_till : Nat) :
    Fallible × Nat :=
  if subrange_start < hi then
    let w := min hi (satAdd32 subrange_start MAX_DATA_BYTES)
    dataLoop (add_data f subrange_start w) (subrange_start + MAX_DATA_BYTES) hi w
  else (f, written_till)
termination_by hi - subrange_start
decreasing_by have h : 0 < MAX_DATA_BYTES := by decide
              omega

/-- Data emission for `after = lo..hi`: the loop above starting from
`written_till = lo`, then the trailing
`if written_till < hi { add_data(written_till..hi) }` (delta.rs 363-366). -/
def emitDatas (f : Fallible) (lo hi : Nat) : Fallible :=
  match dataLoop f lo hi lo with
  | (f', written_till) => if written_till < hi then add_data f' written_till hi else f'

/-- `Sink::process_change` for `FallibleDeltaInstructions` (delta.rs lines
304-373).  `before` and `after` are the `(start, end)` pairs of the change
event's ranges over the base and the new object. -/
def process_change (f : Fallible) (before after : Nat × Nat) : Fallible :=
  match f with
  | .valid st =>
    match compare before.1 st.processed_till with
    | .lt => .invalid "Encountered invalid processed range while diffing content"
    | .eq =>
      update_processed_till (emitDatas (.valid st) after.1 after.2) before.2
    | .gt =>
      update_processed_till
        (emitDatas (emitCopies (.valid st) st.processed_till before.1) after.1 after.2)
        before.2
  | .invalid e => .invalid e
  | .panicked => .panicked

/-- `Sink::finish` (delta.rs lines 375-415).  The base length is taken
`as u32`.  Returns `none` when the sink had panicked (the finish path
itself only calls `add_copy`, which cannot panic). -/
def finishDelta (f : Fallible) : Option (Except String DeltaState) :=
  match f with
  | .valid st =>
    let base_obj_len := st.base_object.length % 2 ^ 32
    match compare base_obj_len st.processed_till with
    | .lt => some (.error "Processed till position which is greater than base object size")
    | .eq => some (.ok st)
    | .gt =>
      match emitCopies (.valid st) st.processed_till base_obj_len with
      | .valid st' => some (.ok st')
      | .invalid e => some (.error e)
      | .panicked => none
  | .invalid e => some (.error e)
  | .panicked => none

/-- One sink step for a change event `((before.start, before.end),
(after.start, after.end))`. -/
def stepChange (f : Fallible) (ev : (Nat × Nat) × (Nat × Nat)) : Fallible :=
  process_change f ev.1 ev.2

/-- `DeltaInstructions::generate` (delta.rs lines 178-194), with the
external diff engine abstracted by the list of change events it reports:
start from the empty instruction list with `processed_till = 0`, feed
every event to the sink, and finish.  `none` models a panic. -/
def generateDelta (base new : List Nat) (events : List ((Nat × Nat) × (Nat × Nat))) :
    Option (Except String DeltaState) :=
  finishDelta (events.foldl stepChange (.valid ⟨base, new, 0, []⟩))

/-! ### The pack-delta apply procedure (delta.rs lines 490-541)

`apply` walks the instruction body byte by byte: a command byte with the
high bit set introduces a Copy (its low seven bits flag which of four
offset and three size bytes follow; an absent size means 65536), a zero
command byte is rejected, and any other command byte is a Data run of
that many literal bytes.  Out-of-bounds accesses (`data[i]`,
`base[ofs..ofs + size]`) and the zero command byte panic in the source
and are modelled as `none`. -/

/-- Read one byte from the stream when `flag` is set; an unset flag
leaves the accumulator contribution at 0 and consumes nothing. -/
def readIf (flag : Bool) (r : List Nat) : Option (Nat × List Nat) :=
  if flag then
    match r with
    | [] => none
    | b :: r' => some (b, r')
  else some (0, r)

/-- The `while let Some(cmd) = data.get(i)` loop of `apply`.  Each
iteration consumes at least one byte, so `fuel = data.length` always
suffices; the `fuel = 0` case with nonempty data is unreachable from
`applyDelta`. -/
def applyLoop (base target data : List Nat) (fuel : Nat) : Option (List Nat) :=
  match fuel, data with
  | _, [] => some target
  | 0, _ :: _ => none
  | fuel + 1, cmd :: rest =>
    if cmd &&& 128 ≠ 0 then
      match readIf (decide (cmd &&& 1 ≠ 0)) rest with
      | none => none
      | some (o0, r1) =>
      match readIf (decide (cmd &&& 2 ≠ 0)) r1 with
      | none => none
      | some (o1, r2) =>
      match readIf (decide (cmd &&& 4 ≠ 0)) r2 with
      | none => none
      | some (o2, r3) =>
      match readIf (decide (cmd &&& 8 ≠ 0)) r3 with
      | none => none
      | some (o3, r4) =>
      match readIf (decide (cmd &&& 16 ≠ 0)) r4 with
      | none => none
      | some (s0, r5) =>
      match readIf (decide (cmd &&& 32 ≠ 0)) r5 with
      | none => none
      | some (s1, r6) =>
      match readIf (decide (cmd &&& 64 ≠ 0)) r6 with
      | none => none
      | some (s2, r7) =>
        let ofs := ((o0 ||| o1 <<< 8) ||| o2 <<< 16) ||| o3 <<< 24
        let size0 := (s0 ||| s1 <<< 8) ||| s2 <<< 16
        let size := if size0 = 0 then 65536 else size0
        if ofs + size ≤ base.length then
          applyLoop base (target ++ (base.drop ofs).take size) r7 fuel
        else none
    else
      if cmd = 0 then none
      else
        if cmd ≤ rest.length then
          applyLoop base (target ++ rest.take cmd) (rest.drop cmd) fuel
        else none

/-- `apply(base, target, data)` with an initially empty target. -/
def applyDelta (base data : List Nat) : Option (List Nat) :=
  applyLoop base [] data data.length

/-! ### Semantics of an instruction list and the diff-engine contract -/

/-- What one instruction contributes to the reconstructed object: a Data
instruction its raw bytes, a Copy instruction the base slice
`[base_offset, base_offset + size)`. -/
def instrSem (base : List Nat) : DeltaInstruction → List Nat
  | .Data bytes => bytes
  | .Copy base_offset size => (base.drop base_offset).take size

/-- The object reconstructed by applying a whole instruction list to the
base. -/
def semConcat (base : List Nat) (instrs : List DeltaInstruction) : List Nat :=
  (instrs.map (instrSem base)).flatten

/-- The slice `l[i..j)` of a list. -/
def sl (l : List Nat) (i j : Nat) : List Nat := (l.drop i).take (j - i)

/-- Well-formedness of a produced instruction with respect to the base
object: Data payloads are nonempty and at most `MAX_DATA_BYTES` long;
Copy ranges are nonempty, at most `MAX_COPY_BYTES` long and lie inside
the base. -/
def InstrWf (base : List Nat) : DeltaInstruction → Prop
  | .Data bytes => 1 ≤ bytes.length ∧ bytes.length ≤ 127
  | .Copy base_offset size =>
      1 ≤ size ∧ size ≤ 2 ^ 24 - 1 ∧ base_offset + size ≤ base.length

/-- The documented contract of the external diff engine (spec §4.2 driver
contract): starting from cursors `bpos` (over the base) and `apos` (over
the new object), the remaining change events have ranges inside the two
objects, arrive in increasing order, and the stretches between and after
the reported changes are identical in both objects. -/
def DiffOk (base new : List Nat) : Nat → Nat → List ((Nat × Nat) × (Nat × Nat)) → Prop
  | bpos, apos, [] =>
      bpos ≤ base.length ∧ apos ≤ new.length ∧ base.drop bpos = new.drop apos
  | bpos, apos, ((bs, be), (as_, ae)) :: rest =>
      bpos ≤ bs ∧ bs ≤ be ∧ be ≤ base.length ∧
      apos ≤ as_ ∧ as_ ≤ ae ∧ ae ≤ new.length ∧
      bs - bpos = as_ - apos ∧
      sl base bpos bs = sl new apos as_ ∧
      DiffOk base new be ae rest

/-! ### Tiered cache coordinator (caching_ext/src/lib.rs)

The coordinator `get_or_fill` of lib.rs is generic over a
`KeyedEntityStore`.  The trait methods and the two tier adapters
(`CachelibHandler`, `MemcacheHandler`, whose implementations live outside
the provided sources) are modelled as fields of `EStore`:

* the fast tier is an association list of (cache key, value) pairs that
  the call reads and fills (spec §6: `get_many(keys) -> (hits, misses)`
  sync, `set` best-effort, mockable), with a per-key injectable read
  error (spec §7: a fast-tier read error is propagated) and per-key write
  success flag;
* the shared tier is read through the oracle `memcache_get`
  (spec §6: `get(sk) -> Option<bytes>` async, fallible) and written via a
  log of submitted `(key, bytes)` writes; write results are discarded by
  the source, so no write-failure oracle is observable;
* `MEMCACHE_VALUE_MAX_SIZE` is the field `memcache_max_size`.

A returned map is modelled as the association list of its entries, in
the order the source extends `ret`. -/

inductive CacheTtlM where
  | NoTtl
  | Ttl (d : Nat)
deriving Repr, DecidableEq

inductive CacheDispositionM where
  | Cache (ttl : CacheTtlM)
  | Ignore
deriving Repr, DecidableEq

/-- `McErrorKind` (lib.rs lines 33-41). -/
inductive McErrorKind where
  | MemcacheInternal
  | Missing
  | Deserialization
deriving Repr, DecidableEq

/-- The `KeyedEntityStore`/`EntityStore` capabilities plus the modelled
tier adapters (see the section comment). -/
structure EStore (K V : Type) where
  get_cache_key : K → String
  keygen : String → String
  cache_determinator : V → CacheDispositionM
  spawn_memcache_writes : Bool
  get_from_db : List K → Except String (List (K × V))
  serializeV : V → List Nat
  deserializeV : List Nat → Except Unit V
  cachelib_read_error : String → Option String
  cachelib_set_ok : String → Bool
  memcache_get : String → Except Unit (Option (List Nat))
  memcache_max_size : Nat

/-- Association-list lookup on string keys (models a `HashMap` get; the
fill functions prepend, so the most recent write wins). -/
def alookup {V : Type} (m : List (String × V)) (k : String) : Option V :=
  match m with
  | [] => none
  | (k', v) :: rest => if k' = k then some v else alookup rest k

/-- `CachelibHandler::get_multiple_from_cachelib`, modelled from the spec
(fast tier batched multi-get partitioning into hits and misses, §4.1 step
3 and §6), over the current fast-tier contents; a key with an injected
read error fails the whole batched get (§7: fast-tier read error
propagated). -/
def get_multiple_from_cachelib {K V : Type} (s : EStore K V)
    (tier : List (String × V)) :
    List (K × String) → Except String (List (K × V) × List (K × String))
  | [] => .ok ([], [])
  | (k, ck) :: rest =>
    match s.cachelib_read_error ck with
    | some e => .error e
    | none =>
      match get_multiple_from_cachelib s tier rest with
      | .error e => .error e
      | .ok (hits, misses) =>
        match alookup tier ck with
        | some v => .ok ((k, v) :: hits, misses)
        | none => .ok (hits, (k, ck) :: misses)

/-- The per-key fetch inside `get_multiple_from_memcache` (lib.rs lines
242-252): a memcache API error, a missing value and a failed
deserialization map to the three `McErrorKind`s. -/
def mcFetchOne {K V : Type} (s : EStore K V) (mk : String) : Except McErrorKind V :=
  match s.memcache_get mk with
  | .error _ => .error .MemcacheInternal
  | .ok none => .error .Missing
  | .ok (some bytes) =>
    match s.deserializeV bytes with
    | .ok v => .ok v
    | .error _ => .error .Deserialization

/-- The value a shared-tier probe of `mk` contributes, collapsing the
three error kinds to a miss. -/
def classifyMc {K V : Type} (s : EStore K V) (mk : String) : Option V :=
  match mcFetchOne s mk with
  | .ok v => some v
  | .error _ => none

/-- `get_multiple_from_memcache` (lib.rs lines 227-276): each key's fetch
result is partitioned into `fetched` (hits, keeping the cachelib key for
the back-fill) and `left_to_fetch`; every error kind lands in
`left_to_fetch`. -/
def get_multiple_from_memcache {K V : Type} (s : EStore K V) :
    List (K × String × String) →
    (List (K × (V × String)) × List (K × String × String))
  | [] => ([], [])
  | (k, ck, mk) :: rest =>
    match get_multiple_from_memcache s rest with
    | (fetched, left_to_fetch) =>
      match mcFetchOne s mk with
      | .ok v => ((k, (v, ck)) :: fetched, left_to_fetch)
      | .error _ => (fetched, (k, ck, mk) :: left_to_fetch)

/-- `fill_multiple_cachelib` (lib.rs lines 278-297): `NoTtl` entries are
written to the fast tier (write failures ignored — a failed set leaves
the tier unchanged); `Ttl` entries are not written ("Not implemented yet
for our cachelib cache"). -/
def fill_multiple_cachelib {K V : Type} (s : EStore K V)
    (tier : List (String × V)) :
    List (String × CacheTtlM × V) → List (String × V)
  | [] => tier
  | (ck, ttl, v) :: rest =>
    match ttl with
    | .NoTtl =>
      if s.cachelib_set_ok ck then
        (ck, v) :: fill_multiple_cachelib s tier rest
      else fill_multiple_cachelib s tier rest
    | .Ttl _ => fill_multiple_cachelib s tier rest

/-- `fill_multiple_memcache` (lib.rs lines 299-336) as the list of writes
submitted to the shared tier: a value whose serialized length reaches
`memcache_max_size` is skipped; the results of the submitted writes are
discarded by the source (whether spawned or awaited), so the log is the
whole observable effect. -/
def fill_multiple_memcache {K V : Type} (s : EStore K V) :
    List (String × CacheTtlM × V) → List (String × List Nat)
  | [] => []
  | (mk, _, v) :: rest =>
    let bytes := s.serializeV v
    if bytes.length ≥ s.memcache_max_size then fill_multiple_memcache s rest
    else (mk, bytes) :: fill_multiple_memcache s rest

/-- `fill_caches_by_key` (lib.rs lines 198-225): entries whose disposition
is `Ignore` are dropped; the rest are pushed to both tiers.  Returns the
new fast-tier contents and the submitted shared-tier writes. -/
def fill_caches_by_key {K V : Type} (s : EStore K V)
    (tier : List (String × V)) (data : List (String × String × V)) :
    List (String × V) × List (String × List Nat) :=
  let kept := data.filterMap (fun e =>
    match s.cache_determinator e.2.2 with
    | .Cache ttl => some (e.1, e.2.1, ttl, e.2.2)
    | .Ignore => none)
  (fill_multiple_cachelib s tier (kept.map (fun e => (e.1, e.2.2.1, e.2.2.2))),
   fill_multiple_memcache s (kept.map (fun e => (e.2.1, e.2.2.1, e.2.2.2))))

/-- The observable outcome of one `get_or_fill` call: the returned map
(`none` models a panic), the fast-tier contents afterwards, the writes
submitted to the shared tier, and the argument of each backing-store
call. -/
structure GetOrFillOut (K V : Type) where
  result : Option (Except String (List (K × V)))
  cachelib : List (String × V)
  mcWrites : List (String × List Nat)
  dbCalls : List (List K)
deriving Repr

/-- The `key_mapping` lookup of lib.rs lines 147-170: for a key returned
by the store, find its `(cachelib_key, memcache_key)` among the requested
triples; `expect(...)` panics when the store returns a key that was not
requested. -/
def findKeyMapping {K : Type} [DecidableEq K] (triples : List (K × String × String))
    (k : K) : Option (String × String) :=
  match triples with
  | [] => none
  | (k', ck, mk) :: rest => if k' = k then some (ck, mk) else findKeyMapping rest k

/-- The loop of lib.rs lines 163-170: for each `(k, v)` returned by the
store, look up `(cachelib_key, memcache_key)` for `k` among the requested
triples, panicking (`expect`, modelled as `none`) when the store returned
a key that was not requested. -/
def mapKeyEntries {K V : Type} [DecidableEq K]
    (triples : List (K × String × String)) :
    List (K × V) → Option (List (String × String × V))
  | [] => some []
  | e :: rest =>
    match findKeyMapping triples e.1 with
    | none => none
    | some p => (mapKeyEntries triples rest).map (fun es => (p.1, p.2, e.2) :: es)

/-- `get_or_fill` (lib.rs lines 94-178).  Step order as in the source:
compute cachelib keys, batched fast-tier read (its error propagated with
context), shared-tier probes for the misses, fast-tier back-fill of
shared-tier hits with a `Cache` disposition, then — only if some keys
remain — one backing-store call whose error is propagated with context,
filling both tiers from the returned data.  The returned map is the
concatenation of fast-tier hits, shared-tier hits, and store data. -/
def get_or_fill {K V : Type} [DecidableEq K] (s : EStore K V)
    (tier : List (String × V)) (keys : List K) : GetOrFillOut K V :=
  let cachelib_keys := keys.map (fun k => (k, s.get_cache_key k))
  match get_multiple_from_cachelib s tier cachelib_keys with
  | .error e =>
    ⟨some (.error ("Error reading from cachelib: " ++ e)), tier, [], []⟩
  | .ok (fetched_from_cachelib, to_fetch_from_memcache) =>
    let triples := to_fetch_from_memcache.map (fun e => (e.1, e.2, s.keygen e.2))
    match get_multiple_from_memcache s triples with
    | (fetched_from_memcache, to_fetch_from_store) =>
      let tier1 := fill_multiple_cachelib s tier
        (fetched_from_memcache.filterMap (fun e =>
          match s.cache_determinator e.2.1 with
          | .Cache ttl => some (e.2.2, ttl, e.2.1)
          | .Ignore => none))
      let ret2 := fetched_from_cachelib ++
        fetched_from_memcache.map (fun e => (e.1, e.2.1))
      if to_fetch_from_store.isEmpty then
        ⟨some (.ok ret2), tier1, [], []⟩
      else
        let storeKeys := to_fetch_from_store.map (fun e => e.1)
        match s.get_from_db storeKeys with
        | .error e =>
          ⟨some (.error ("Error reading from store: " ++ e)), tier1, [], [storeKeys]⟩
        | .ok data =>
          match mapKeyEntries to_fetch_from_store data with
          | none => ⟨none, tier1, [], [storeKeys]⟩
          | some entries =>
            match fill_caches_by_key s tier1 entries with
            | (tier2, writes) =>
              ⟨some (.ok (ret2 ++ data)), tier2, writes, [storeKeys]⟩

/-- `fill_cache` (lib.rs lines 180-196): write the supplied pairs into
both tiers subject to the disposition, without reading. -/
def fill_cacheM {K V : Type} (s : EStore K V) (tier : List (String × V))
    (data : List (K × V)) : List (String × V) × List (String × List Nat) :=
  fill_caches_by_key s tier
    (data.map (fun e =>
      (s.get_cache_key e.1, s.keygen (s.get_cache_key e.1), e.2)))

/-- A concrete store over `Nat` keys and values, used to instantiate the
cache-coordinator theorems: the backing store maps `k` to `k + 100`, the
disposition is always `Cache(NoTtl)`, the shared tier always misses, and
a value serializes to `v` zero bytes (so values `v ≥ 3` exceed the
shared-tier ceiling of 3). -/
def storeB : EStore Nat Nat where
  get_cache_key k := "key" ++ toString k
  keygen ck := "mc:" ++ ck
  cache_determinator _ := .Cache .NoTtl
  spawn_memcache_writes := false
  get_from_db ks := .ok (ks.map (fun k => (k, k + 100)))
  serializeV v := List.replicate v 0
  deserializeV bs := .ok bs.length
  cachelib_read_error _ := none
  cachelib_set_ok _ := true
  memcache_get _ := .ok none
  memcache_max_size := 3

/-- Invariant for the panic-freedom argument: the sink state has not
panicked, and while it is still valid its `new_object` field is the
generator's new object. -/
def NPV (new : List Nat) (f : Fallible) : Prop :=
  (∃ st, f = .valid st ∧ st.new_object = new) ∨ (∃ e, f = .invalid e)

/-! ### Arithmetic and list helper lemmas -/

theorem testBit_mul_pow_lt (b k i : Nat) (h : i < k) :
    (b * 2 ^ k).testBit i = false := by
  rw [Nat.testBit_to_div_mod]
  have h2 : b * 2 ^ k / 2 ^ i = b * 2 ^ (k - i) := by
    have hk : 2 ^ k = 2 ^ (k - i) * 2 ^ i := by
      rw [← pow_add]
      congr 1
      omega
    rw [hk, ← Nat.mul_assoc, Nat.mul_div_cancel _ (Nat.two_pow_pos i)]
  rw [h2]
  have h3 : b * 2 ^ (k - i) % 2 = 0 := by
    have hk : 2 ^ (k - i) = 2 ^ (k - i - 1) * 2 := by
      rw [← pow_succ]
      congr 1
      omega
    rw [hk, ← Nat.mul_assoc]
    exact Nat.mul_mod_left _ 2
  simp [h3]

theorem testBit_add_mul_pow_lt (a b k i : Nat) (ha : a < 2 ^ k) (h : i < k) :
    (a + b * 2 ^ k).testBit i = a.testBit i := by
  have hmod : (a + b * 2 ^ k) % 2 ^ k = a := by
    rw [Nat.add_mul_mod_self_right, Nat.mod_eq_of_lt ha]
  have hbit := Nat.testBit_mod_two_pow (a + b * 2 ^ k) k i
  rw [hmod] at hbit
  simp [h] at hbit
  exact hbit.symm

theorem testBit_add_mul_pow_ge (a b k i : Nat) (ha : a < 2 ^ k) (h : k ≤ i) :
    (a + b * 2 ^ k).testBit i = b.testBit (i - k) := by
  rw [Nat.testBit_to_div_mod, Nat.testBit_to_div_mod]
  have h1 : (a + b * 2 ^ k) / 2 ^ i = b / 2 ^ (i - k) := by
    have hsplit : 2 ^ i = 2 ^ k * 2 ^ (i - k) := by
      rw [← pow_add]
      congr 1
      omega
    rw [hsplit, ← Nat.div_div_eq_div_mul]
    congr 1
    rw [Nat.mul_comm b (2 ^ k), Nat.add_mul_div_left _ _ (Nat.two_pow_pos k),
      Nat.div_eq_of_lt ha, Nat.zero_add]
  rw [h1]

theorem lor_mul_pow_eq_add (a b k : Nat) (h : a < 2 ^ k) :
    a ||| b * 2 ^ k = a + b * 2 ^ k := by
  apply Nat.eq_of_testBit_eq
  intro i
  rw [Nat.testBit_or]
  rcases Nat.lt_or_ge i k with hik | hik
  · rw [testBit_mul_pow_lt b k i hik, testBit_add_mul_pow_lt a b k i h hik,
      Bool.or_false]
  · rw [testBit_add_mul_pow_ge a b k i h hik]
    have hzero : a.testBit i = false :=
      Nat.testBit_lt_two_pow
        (lt_of_lt_of_le h (Nat.pow_le_pow_right (by norm_num) hik))
    have hmul := testBit_add_mul_pow_ge 0 b k i (Nat.two_pow_pos k) hik
    rw [Nat.zero_add] at hmul
    rw [hzero, hmul, Bool.false_or]

theorem lor_shiftLeft_eq_add (a b k : Nat) (h : a < 2 ^ k) :
    a ||| b <<< k = a + b * 2 ^ k := by
  rw [Nat.shiftLeft_eq]
  exact lor_mul_pow_eq_add a b k h

theorem flagBits_testBit (L : List Nat) (i : Nat) :
    (flagBits L).testBit i = decide (L.getD i 0 ≠ 0) := by
  induction L generalizing i with
  | nil => simp [flagBits, Nat.zero_testBit, List.getD]
  | cons b rest ih =>
    cases i with
    | zero =>
      by_cases hb : b = 0 <;>
        simp [flagBits, hb, Nat.testBit_zero, Nat.add_mul_mod_self_left]
    | succ i =>
      rw [Nat.testBit_succ]
      have hdiv : flagBits (b :: rest) / 2 = flagBits rest := by
        by_cases hb : b = 0 <;> simp [flagBits, hb] <;> omega
      rw [hdiv, ih]
      simp

theorem and_two_pow_ne_zero (n i : Nat) : (n &&& 2 ^ i ≠ 0) ↔ n.testBit i = true := by
  rw [Nat.and_two_pow]
  cases h : n.testBit i <;> simp [(Nat.two_pow_pos i).ne']

theorem sl_append (l : List Nat) (i j k : Nat) (h1 : i ≤ j) (h2 : j ≤ k) :
    sl l i j ++ sl l j k = sl l i k := by
  have hd : (l.drop i).drop (j - i) = l.drop j := by
    rw [List.drop_drop]
    congr 1
    omega
  unfold sl
  rw [show k - i = (j - i) + (k - j) by omega, List.take_add, hd]

theorem take_append_sl (l : List Nat) (i j : Nat) (h1 : i ≤ j) :
    l.take i ++ sl l i j = l.take j := by
  conv_rhs => rw [show j = i + (j - i) by omega, List.take_add]
  rfl

theorem sl_to_end (l : List Nat) (i : Nat) : sl l i l.length = l.drop i := by
  unfold sl
  apply List.take_of_length_le
  simp

theorem sl_length (l : List Nat) (i j : Nat) (h : j ≤ l.length) :
    (sl l i j).length = j - i := by
  unfold sl
  simp [List.length_take, List.length_drop]
  omega

/-! ### Size-codec lemmas -/

theorem readSize_writeSizeLoop (s : Nat) : ∀ b extra shift acc, b < 128 →
    readSize (writeSizeLoop b s ++ extra) shift acc =
      some (acc + (b + 128 * s) * 2 ^ shift, extra) := by
  induction s using Nat.strong_induction_on with
  | _ s ih =>
    intro b extra shift acc hb
    by_cases hs : s = 0
    · subst hs
      rw [writeSizeLoop]
      simp [readSize, hb, Nat.mod_eq_of_lt hb]
    · rw [writeSizeLoop]
      simp only [hs, if_false, List.cons_append]
      have hor : b ||| CONTINUATION_BITMASK = b + 128 := by
        have h := lor_mul_pow_eq_add b 1 7 hb
        norm_num at h
        simpa [CONTINUATION_BITMASK] using h
      rw [hor, readSize, if_neg (show ¬ b + 128 < 128 by omega),
        show (b + 128) % 128 = b by omega,
        ih (s / 128) (Nat.div_lt_self (Nat.pos_of_ne_zero hs) (by norm_num))
          (s % 128) extra (shift + 7) _ (Nat.mod_lt _ (by norm_num))]
      congr 2
      rw [show s % 128 + 128 * (s / 128) = s by omega, pow_add,
        show (2 : Nat) ^ 7 = 128 by norm_num]
      ring

theorem writeSizeLoop_highBit (s : Nat) : ∀ b, b < 128 →
    ∀ i, i < (writeSizeLoop b s).length →
      ((writeSizeLoop b s).getD i 0).testBit 7 =
        decide (i + 1 < (writeSizeLoop b s).length) := by
  induction s using Nat.strong_induction_on with
  | _ s ih =>
    intro b hb i hi
    by_cases hs : s = 0
    · subst hs
      rw [writeSizeLoop] at hi ⊢
      simp at hi
      subst hi
      simp [Nat.testBit_lt_two_pow (show b < 2 ^ 7 by omega)]
    · have htail : 0 < (writeSizeLoop (s % 128) (s / 128)).length := by
        rw [writeSizeLoop]
        split <;> simp
      rw [writeSizeLoop]
      simp only [hs, if_false]
      cases i with
      | zero =>
        have hor : b ||| CONTINUATION_BITMASK = b + 128 := by
          have h := lor_mul_pow_eq_add b 1 7 hb
          norm_num at h
          simpa [CONTINUATION_BITMASK] using h
        have hbit : (b + 128).testBit 7 = true := by
          rw [Nat.testBit_to_div_mod, show (2 : Nat) ^ 7 = 128 by norm_num]
          exact decide_eq_true (by omega)
        rw [List.getD_cons_zero, hor, hbit]
        simp [htail]
      | succ i =>
        rw [writeSizeLoop] at hi
        simp only [hs, if_false, List.length_cons] at hi
        have hi' : i < (writeSizeLoop (s % 128) (s / 128)).length := by omega
        have := ih (s / 128) (Nat.div_lt_self (Nat.pos_of_ne_zero hs) (by norm_num))
          (s % 128) (Nat.mod_lt _ (by norm_num)) i hi'
        simpa using this

/-- C7: `write_size` emits a little-endian base-128 encoding whose bytes
carry the continuation bit exactly when more bytes follow, zero encodes
as the single byte `0x00`, and the §4.3 decoder returns the encoded value
and consumes exactly the written bytes. -/
theorem write_size_codec (n : Nat) (extra : List Nat) :
    readSize (write_size n ++ extra) 0 0 = some (n, extra) ∧
    write_size 0 = [0] ∧
    ∀ i, i < (write_size n).length →
      ((write_size n).getD i 0).testBit 7 = decide (i + 1 < (write_size n).length) := by
  refine ⟨?_, ?_, ?_⟩
  · rw [write_size, readSize_writeSizeLoop (n / 128) (n % 128) extra 0 0
      (Nat.mod_lt _ (by norm_num))]
    congr 2
    simp
    omega
  · rw [write_size]
    norm_num
    rw [writeSizeLoop]
    norm_num
  · intro i hi
    exact writeSizeLoop_highBit (n / 128) (n % 128) (Nat.mod_lt _ (by norm_num)) i hi

/-- C7 witness: the codec round-trip and continuation-bit shape at the
concrete value 300 with a trailing byte. -/
theorem write_size_codec_witness :
    readSize (write_size 300 ++ [7]) 0 0 = some (300, [7]) ∧
    ((write_size 300).getD 0 0).testBit 7 = decide (0 + 1 < (write_size 300).length) := by
  have h : write_size 300 = [172, 2] := by
    simp [write_size, writeSizeLoop]
    decide
  exact ⟨(write_size_codec 300 [7]).1,
    (write_size_codec 300 [7]).2.2 0 (by rw [h]; decide)⟩

set_option maxRecDepth 10000 in
/-- C2: `from_data` accepts the empty byte sequence (returning
`Ok(Data([]))`) even though the spec requires an error for `|b| = 0`;
serializing that instruction yields the single byte `0`, which the
repository's own `apply` rejects as an unsupported command code.  The
over-long and boundary cases behave as specified. -/
theorem from_data_empty_accepted :
    from_data [] = .ok (.Data []) ∧
    applyDelta [1, 2, 3] (serializeBody [.Data []]) = none ∧
    from_data (List.replicate 128 0) = .error "Encountered invalid data instruction size" ∧
    from_data (List.replicate 127 0) = .ok (.Data (List.replicate 127 0)) := by
  refine ⟨rfl, by decide, ?_, ?_⟩ <;> rfl

/-! ### C6: Copy instruction serialization -/

theorem copyCmd_testBit_lt (L : List Nat) (i : Nat) (hi : i < 7) :
    (COPY_INSTRUCTION ||| flagBits L).testBit i = decide (L.getD i 0 ≠ 0) := by
  rw [show COPY_INSTRUCTION = 2 ^ 7 by decide, Nat.testBit_or,
    Nat.testBit_two_pow_of_ne (by omega), Bool.false_or, flagBits_testBit]

theorem copyCmd_testBit_seven (L : List Nat) :
    (COPY_INSTRUCTION ||| flagBits L).testBit 7 = true := by
  rw [show COPY_INSTRUCTION = 2 ^ 7 by decide, Nat.testBit_or,
    Nat.testBit_two_pow_self, Bool.true_or]

/-- C6: the serialization of `Copy { offset, size }` is one command byte
with the high bit set, followed by exactly the nonzero little-endian
bytes of the offset and then of the encoded size, in order; flag bit
`i < 4` of the command byte reflects offset byte `i` and flag bit
`4 ≤ i ≤ 6` reflects encoded-size byte `i - 4`; for `size = 65536` the
encoded size is 0, so no size bytes are emitted and bits 4-6 are clear. -/
theorem copy_serialization (off size : Nat) (hoff : off < 2 ^ 32)
    (h1 : 1 ≤ size) (h2 : size ≤ 2 ^ 24 - 1) :
    (instructionBytes (.Copy off size)).tail =
      (leBytes4 off).filter (fun b => b ≠ 0) ++
      (leBytes4 (if size = 65536 then 0 else size)).filter (fun b => b ≠ 0) ∧
    ((instructionBytes (.Copy off size)).getD 0 0).testBit 7 = true ∧
    (∀ i, i < 4 → ((instructionBytes (.Copy off size)).getD 0 0).testBit i =
      decide ((leBytes4 off).getD i 0 ≠ 0)) ∧
    (∀ i, 4 ≤ i → i ≤ 6 → ((instructionBytes (.Copy off size)).getD 0 0).testBit i =
      decide ((leBytes4 (if size = 65536 then 0 else size)).getD (i - 4) 0 ≠ 0)) ∧
    (size = 65536 →
      (instructionBytes (.Copy off size)).tail = (leBytes4 off).filter (fun b => b ≠ 0) ∧
      ((instructionBytes (.Copy off size)).getD 0 0).testBit 4 = false ∧
      ((instructionBytes (.Copy off size)).getD 0 0).testBit 5 = false ∧
      ((instructionBytes (.Copy off size)).getD 0 0).testBit 6 = false) := by
  have hspecial : COPY_SPECIAL_SIZE = 65536 := by decide
  have hcmd : (instructionBytes (.Copy off size)).getD 0 0 =
      COPY_INSTRUCTION ||| flagBits (leBytes4 off ++
        leBytes4 (if size = 65536 then 0 else size)) := by
    simp [instructionBytes, hspecial]
  have htail : (instructionBytes (.Copy off size)).tail =
      (leBytes4 off).filter (fun b => b ≠ 0) ++
      (leBytes4 (if size = 65536 then 0 else size)).filter (fun b => b ≠ 0) := by
    simp [instructionBytes, hspecial]
  refine ⟨htail, ?_, ?_, ?_, ?_⟩
  · rw [hcmd]
    exact copyCmd_testBit_seven _
  · intro i hi
    rw [hcmd, copyCmd_testBit_lt _ i (by omega)]
    interval_cases i <;> simp [leBytes4]
  · intro i hi4 hi6
    rw [hcmd, copyCmd_testBit_lt _ i (by omega)]
    interval_cases i <;> simp [leBytes4]
  · intro h65536
    subst h65536
    refine ⟨?_, ?_, ?_, ?_⟩
    · rw [htail]
      simp [leBytes4]
    all_goals
      rw [hcmd, copyCmd_testBit_lt _ _ (by omega)]
      simp [leBytes4]

/-- C6 witness: the special case `Copy { offset := 258, size := 65536 }`:
high bit set, payload is exactly the nonzero offset bytes, bits 4-6
clear. -/
theorem copy_serialization_witness :
    ((instructionBytes (.Copy 258 65536)).getD 0 0).testBit 7 = true ∧
    (instructionBytes (.Copy 258 65536)).tail =
      (leBytes4 258).filter (fun b => b ≠ 0) ∧
    ((instructionBytes (.Copy 258 65536)).getD 0 0).testBit 4 = false := by
  have h := copy_serialization 258 65536 (by norm_num) (by norm_num) (by norm_num)
  exact ⟨h.2.1, (h.2.2.2.2 rfl).1, (h.2.2.2.2 rfl).2.1⟩

/-! ### C8: ordering violation and over-processed finalization -/

theorem process_change_invalid (e : String) (before after : Nat × Nat) :
    process_change (.invalid e) before after = .invalid e := rfl

theorem foldl_stepChange_invalid (evs : List ((Nat × Nat) × (Nat × Nat))) (e : String) :
    evs.foldl stepChange (.invalid e) = .invalid e := by
  induction evs with
  | nil => rfl
  | cons ev rest ih => rw [List.foldl_cons, stepChange, process_change_invalid, ih]

/-- C8: a change event whose `before.start` is below the current
`processed_till` cursor moves the sink into the invalid state; every
later event leaves that state (and hence the instruction list) unchanged
and `finish` surfaces the error; independently, `finish` on a valid state
whose cursor exceeds the base length (`as u32`) returns an error. -/
theorem ordering_violation_aborts :
    (∀ (st : DeltaState) (before after : Nat × Nat)
        (evs : List ((Nat × Nat) × (Nat × Nat))),
      before.1 < st.processed_till →
      evs.foldl stepChange (process_change (.valid st) before after) =
        .invalid "Encountered invalid processed range while diffing content" ∧
      finishDelta (evs.foldl stepChange (process_change (.valid st) before after)) =
        some (.error "Encountered invalid processed range while diffing content")) ∧
    (∀ st : DeltaState, st.base_object.length % 2 ^ 32 < st.processed_till →
      finishDelta (.valid st) =
        some (.error "Processed till position which is greater than base object size")) := by
  constructor
  · intro st before after evs hlt
    have hstep : process_change (.valid st) before after =
        .invalid "Encountered invalid processed range while diffing content" := by
      rw [process_change]
      have : compare before.1 st.processed_till = .lt := by
        rw [Nat.compare_eq_lt]
        exact hlt
      rw [this]
    rw [hstep, foldl_stepChange_invalid]
    exact ⟨rfl, rfl⟩
  · intro st hlt
    rw [finishDelta]
    have : compare (st.base_object.length % 2 ^ 32) st.processed_till = .lt := by
      rw [Nat.compare_eq_lt]
      exact hlt
    rw [this]

/-- C8 witness: a concrete out-of-order event stream and a concrete
over-processed state. -/
theorem ordering_violation_aborts_witness :
    [((9, 9), (0, 0))].foldl stepChange
        (process_change (.valid ⟨[0], [], 1, []⟩) (0, 5) (0, 0)) =
      .invalid "Encountered invalid processed range while diffing content" ∧
    finishDelta (.valid ⟨[], [], 5, []⟩) =
      some (.error "Processed till position which is greater than base object size") :=
  ⟨(ordering_violation_aborts.1 ⟨[0], [], 1, []⟩ (0, 5) (0, 0)
      [((9, 9), (0, 0))] (by decide)).1,
   ordering_violation_aborts.2 ⟨[], [], 5, []⟩ (by decide)⟩

/-! ### C10: panic-freedom of delta generation -/

theorem add_copy_NPV (new : List Nat) (f : Fallible) (a b : Nat) (h : NPV new f) :
    NPV new (add_copy f a b) := by
  rcases h with ⟨st, rfl, hnew⟩ | ⟨e, rfl⟩
  · cases hfc : from_copy a b with
    | ok ins =>
      exact Or.inl ⟨⟨st.base_object, st.new_object, b, st.instructions ++ [ins]⟩,
        by simp [add_copy, hfc], hnew⟩
    | error e => exact Or.inr ⟨e, by simp [add_copy, hfc]⟩
  · exact Or.inr ⟨e, rfl⟩

theorem update_processed_till_NPV (new : List Nat) (f : Fallible) (n : Nat)
    (h : NPV new f) : NPV new (update_processed_till f n) := by
  rcases h with ⟨st, rfl, hnew⟩ | ⟨e, rfl⟩
  · exact Or.inl ⟨_, rfl, hnew⟩
  · exact Or.inr ⟨e, rfl⟩

theorem add_data_NPV (new : List Nat) (f : Fallible) (lo hi : Nat)
    (h1 : lo ≤ hi) (h2 : hi ≤ new.length) (h : NPV new f) :
    NPV new (add_data f lo hi) := by
  rcases h with ⟨st, rfl, hnew⟩ | ⟨e, rfl⟩
  · rw [add_data, if_pos ⟨h1, by rw [hnew]; exact h2⟩]
    cases hfd : from_data ((st.new_object.drop lo).take (hi - lo)) with
    | ok ins =>
      exact Or.inl ⟨{ st with instructions := st.instructions ++ [ins] }, rfl, hnew⟩
    | error e => exact Or.inr ⟨e, rfl⟩
  · exact Or.inr ⟨e, rfl⟩

theorem copyLoop_step (f : Fallible) (s hi c : Nat) (hs : s < hi) :
    copyLoop f s hi c =
      copyLoop (add_copy f s (min hi (satAdd32 s MAX_COPY_BYTES)))
        (s + MAX_COPY_BYTES) hi (min hi (satAdd32 s MAX_COPY_BYTES)) := by
  rw [copyLoop, if_pos hs]

theorem copyLoop_stop (f : Fallible) (s hi c : Nat) (hs : ¬ s < hi) :
    copyLoop f s hi c = (f, c) := by
  rw [copyLoop, if_neg hs]

theorem dataLoop_step (f : Fallible) (s hi c : Nat) (hs : s < hi) :
    dataLoop f s hi c =
      dataLoop (add_data f s (min hi (satAdd32 s MAX_DATA_BYTES)))
        (s + MAX_DATA_BYTES) hi (min hi (satAdd32 s MAX_DATA_BYTES)) := by
  rw [dataLoop, if_pos hs]

theorem dataLoop_stop (f : Fallible) (s hi c : Nat) (hs : ¬ s < hi) :
    dataLoop f s hi c = (f, c) := by
  rw [dataLoop, if_neg hs]

theorem copyLoop_NPV (new : List Nat) (hi : Nat) :
    ∀ k s c f, hi - s ≤ k → NPV new f → NPV new (copyLoop f s hi c).1 := by
  intro k
  induction k with
  | zero =>
    intro s c f hk h
    rw [copyLoop_stop f s hi c (by omega)]
    exact h
  | succ k ih =>
    intro s c f hk h
    by_cases hs : s < hi
    · rw [copyLoop_step f s hi c hs]
      have h0 : 0 < MAX_COPY_BYTES := by decide
      exact ih _ _ _ (by omega) (add_copy_NPV _ _ _ _ h)
    · rw [copyLoop_stop f s hi c hs]
      exact h

theorem dataLoop_NPV (new : List Nat) (hi : Nat) (h2 : hi ≤ new.length)
    (hlen : new.length < 2 ^ 32) :
    ∀ k s c f, hi - s ≤ k → NPV new f → NPV new (dataLoop f s hi c).1 := by
  intro k
  induction k with
  | zero =>
    intro s c f hk h
    rw [dataLoop_stop f s hi c (by omega)]
    exact h
  | succ k ih =>
    intro s c f hk h
    by_cases hs : s < hi
    · rw [dataLoop_step f s hi c hs]
      have hmd : MAX_DATA_BYTES = 127 := by decide
      have hsat : s ≤ satAdd32 s MAX_DATA_BYTES := by
        rw [satAdd32, hmd]
        omega
      have hw1 : s ≤ min hi (satAdd32 s MAX_DATA_BYTES) := by omega
      have hw2 : min hi (satAdd32 s MAX_DATA_BYTES) ≤ new.length := by omega
      exact ih _ _ _ (by omega) (add_data_NPV _ _ _ _ hw1 hw2 h)
    · rw [dataLoop_stop f s hi c hs]
      exact h

theorem emitCopies_NPV (new : List Nat) (f : Fallible) (lo hi : Nat)
    (h : NPV new f) : NPV new (emitCopies f lo hi) := by
  rcases hcl : copyLoop f lo hi lo with ⟨f', c⟩
  have hf' : NPV new f' := by
    have := copyLoop_NPV new hi (hi - lo) lo lo f (le_refl _) h
    rw [hcl] at this
    exact this
  rw [emitCopies, hcl]
  dsimp only
  by_cases hc : c < hi
  · rw [if_pos hc]
    exact add_copy_NPV _ _ _ _ hf'
  · rw [if_neg hc]
    exact hf'

theorem emitDatas_NPV (new : List Nat) (f : Fallible) (lo hi : Nat)
    (h2 : hi ≤ new.length) (hlen : new.length < 2 ^ 32) (h : NPV new f) :
    NPV new (emitDatas f lo hi) := by
  rcases hdl : dataLoop f lo hi lo with ⟨f', w⟩
  have hf' : NPV new f' := by
    have := dataLoop_NPV new hi h2 hlen (hi - lo) lo lo f (le_refl _) h
    rw [hdl] at this
    exact this
  rw [emitDatas, hdl]
  dsimp only
  by_cases hw : w < hi
  · rw [if_pos hw]
    exact add_data_NPV _ _ _ _ (by omega) h2 hf'
  · rw [if_neg hw]
    exact hf'

theorem process_change_NPV (new : List Nat) (f : Fallible) (bef aft : Nat × Nat)
    (haft : aft.2 ≤ new.length) (hlen : new.length < 2 ^ 32) (h : NPV new f) :
    NPV new (process_change f bef aft) := by
  rcases h with ⟨st, rfl, hnew⟩ | ⟨e, rfl⟩
  · rw [process_change]
    rcases hc : compare bef.1 st.processed_till with _ | _ | _
    · exact Or.inr ⟨_, rfl⟩
    · exact update_processed_till_NPV _ _ _
        (emitDatas_NPV _ _ _ _ haft hlen (Or.inl ⟨st, rfl, hnew⟩))
    · exact update_processed_till_NPV _ _ _
        (emitDatas_NPV _ _ _ _ haft hlen
          (emitCopies_NPV _ _ _ _ (Or.inl ⟨st, rfl, hnew⟩)))
  · exact Or.inr ⟨e, rfl⟩

theorem foldl_stepChange_NPV (new : List Nat) (hlen : new.length < 2 ^ 32) :
    ∀ (events : List ((Nat × Nat) × (Nat × Nat))) (f : Fallible),
      (∀ ev ∈ events, ev.2.2 ≤ new.length) → NPV new f →
      NPV new (events.foldl stepChange f) := by
  intro events
  induction events with
  | nil => intro f _ h; exact h
  | cons ev rest ih =>
    intro f hev h
    rw [List.foldl_cons]
    exact ih _ (fun e he => hev e (List.mem_cons_of_mem _ he))
      (process_change_NPV new f ev.1 ev.2 (hev ev (List.mem_cons_self _ _)) hlen h)

theorem finishDelta_NPV (new : List Nat) (f : Fallible) (h : NPV new f) :
    ∃ r, finishDelta f = some r := by
  rcases h with ⟨st, rfl, hnew⟩ | ⟨e, rfl⟩
  · rw [finishDelta]
    rcases hc : compare (st.base_object.length % 2 ^ 32) st.processed_till with _ | _ | _
    · exact ⟨_, rfl⟩
    · exact ⟨_, rfl⟩
    · have := emitCopies_NPV new (.valid st) st.processed_till
        (st.base_object.length % 2 ^ 32) (Or.inl ⟨st, rfl, hnew⟩)
      rcases this with ⟨st', heq, _⟩ | ⟨e, heq⟩
      · rw [heq]
        exact ⟨_, rfl⟩
      · rw [heq]
        exact ⟨_, rfl⟩
  · exact ⟨_, rfl⟩

/-- C10: under the precondition that every change event has
`before ⊆ [0, |base|]` and `after ⊆ [0, |new|]` (with `|new| < 2^32`,
the format's 4 GB object bound), delta generation never panics: the
slice taken by `add_data` is always in bounds, the saturating
chunk-splitting arithmetic keeps every range legal, and `generateDelta`
returns a `Result`. -/
theorem generate_no_panic (base new : List Nat)
    (events : List ((Nat × Nat) × (Nat × Nat)))
    (hlen : new.length < 2 ^ 32)
    (hev : ∀ ev ∈ events,
      ev.1.1 ≤ ev.1.2 ∧ ev.1.2 ≤ base.length ∧ ev.2.1 ≤ ev.2.2 ∧ ev.2.2 ≤ new.length) :
    ∃ r, generateDelta base new events = some r := by
  rw [generateDelta]
  exact finishDelta_NPV new _
    (foldl_stepChange_NPV new hlen events _ (fun ev he => (hev ev he).2.2.2)
      (Or.inl ⟨_, rfl, rfl⟩))

/-- C10 witness: a concrete generation run that returns a result. -/
theorem generate_no_panic_witness :
    ∃ r, generateDelta [1, 2] [3, 4] [((0, 1), (0, 2))] = some r :=
  generate_no_panic [1, 2] [3, 4] [((0, 1), (0, 2))] (by decide)
    (by intro ev he; simp at he; rw [he]; exact ⟨by decide, by decide, by decide, by decide⟩)

theorem readIf_filter_head (b : Nat) (bs rest : List Nat) :
    readIf (decide (b ≠ 0)) (List.filter (fun x => decide (x ≠ 0)) (b :: bs) ++ rest) =
      some (b, List.filter (fun x => decide (x ≠ 0)) bs ++ rest) := by
  by_cases hb : b = 0 <;> simp [readIf, List.filter_cons, hb]

theorem applyLoop_data (base tgt bs rest : List Nat) (fuel : Nat)
    (h1 : 1 ≤ bs.length) (h2 : bs.length ≤ 127) :
    applyLoop base tgt (instructionBytes (.Data bs) ++ rest) (fuel + 1) =
      applyLoop base (tgt ++ bs) rest fuel := by
  have hmod : bs.length % 256 = bs.length := Nat.mod_eq_of_lt (by omega)
  have hand : bs.length &&& 128 = 0 := by
    rw [show (128 : Nat) = 2 ^ 7 by norm_num, Nat.and_two_pow,
      Nat.testBit_lt_two_pow (show bs.length < 2 ^ 7 by omega)]
    simp
  have hstream : instructionBytes (.Data bs) ++ rest = bs.length :: (bs ++ rest) := by
    simp [instructionBytes, hmod]
  rw [hstream]
  rw [applyLoop]
  rw [if_neg (by simp [hand])]
  rw [if_neg (by omega)]
  rw [if_pos (by simp)]
  rw [List.take_left, List.drop_left]

theorem cmd_flag (off szv i : Nat) (hi : i < 7) :
    decide ((COPY_INSTRUCTION ||| flagBits (leBytes4 off ++ leBytes4 szv)) &&& 2 ^ i ≠ 0) =
      decide ((leBytes4 off ++ leBytes4 szv).getD i 0 ≠ 0) := by
  apply decide_eq_decide.mpr
  rw [and_two_pow_ne_zero, copyCmd_testBit_lt _ i hi]
  exact decide_eq_true_iff

theorem applyLoop_copy (base tgt rest : List Nat) (off size : Nat) (fuel : Nat)
    (h1 : 1 ≤ size) (h2 : size ≤ 2 ^ 24 - 1) (h3 : off + size ≤ base.length)
    (hb32 : base.length < 2 ^ 32) :
    applyLoop base tgt (instructionBytes (.Copy off size) ++ rest) (fuel + 1) =
      applyLoop base (tgt ++ (base.drop off).take size) rest fuel := by
  have hoff : off < 2 ^ 32 := by omega
  set szv := if size = COPY_SPECIAL_SIZE then 0 else size with hszv
  have hszlt : szv < 2 ^ 24 := by
    rw [hszv]
    split
    · norm_num
    · omega
  have hstream : instructionBytes (.Copy off size) ++ rest =
      (COPY_INSTRUCTION ||| flagBits (leBytes4 off ++ leBytes4 szv)) ::
        (List.filter (fun x => decide (x ≠ 0))
            [off % 256, off / 256 % 256, off / 65536 % 256, off / 16777216 % 256] ++
         (List.filter (fun x => decide (x ≠ 0))
            [szv % 256, szv / 256 % 256, szv / 65536 % 256, szv / 16777216 % 256] ++ rest)) := by
    simp [instructionBytes, leBytes4, List.append_assoc]
  have hcmd : (COPY_INSTRUCTION ||| flagBits (leBytes4 off ++ leBytes4 szv)) &&& 128 ≠ 0 := by
    rw [show (128 : Nat) = 2 ^ 7 by norm_num]
    exact (and_two_pow_ne_zero _ 7).mpr (copyCmd_testBit_seven _)
  have hf0 : decide ((COPY_INSTRUCTION ||| flagBits (leBytes4 off ++ leBytes4 szv)) &&& 1 ≠ 0)
      = decide (off % 256 ≠ 0) := cmd_flag off szv 0 (by norm_num)
  have hf1 : decide ((COPY_INSTRUCTION ||| flagBits (leBytes4 off ++ leBytes4 szv)) &&& 2 ≠ 0)
      = decide (off / 256 % 256 ≠ 0) := cmd_flag off szv 1 (by norm_num)
  have hf2 : decide ((COPY_INSTRUCTION ||| flagBits (leBytes4 off ++ leBytes4 szv)) &&& 4 ≠ 0)
      = decide (off / 65536 % 256 ≠ 0) := cmd_flag off szv 2 (by norm_num)
  have hf3 : decide ((COPY_INSTRUCTION ||| flagBits (leBytes4 off ++ leBytes4 szv)) &&& 8 ≠ 0)
      = decide (off / 16777216 % 256 ≠ 0) := cmd_flag off szv 3 (by norm_num)
  have hf4 : decide ((COPY_INSTRUCTION ||| flagBits (leBytes4 off ++ leBytes4 szv)) &&& 16 ≠ 0)
      = decide (szv % 256 ≠ 0) := cmd_flag off szv 4 (by norm_num)
  have hf5 : decide ((COPY_INSTRUCTION ||| flagBits (leBytes4 off ++ leBytes4 szv)) &&& 32 ≠ 0)
      = decide (szv / 256 % 256 ≠ 0) := cmd_flag off szv 5 (by norm_num)
  have hf6 : decide ((COPY_INSTRUCTION ||| flagBits (leBytes4 off ++ leBytes4 szv)) &&& 64 ≠ 0)
      = decide (szv / 65536 % 256 ≠ 0) := cmd_flag off szv 6 (by norm_num)
  rw [hstream, applyLoop, if_pos hcmd, hf0, readIf_filter_head]
  dsimp only
  rw [hf1, readIf_filter_head]
  dsimp only
  rw [hf2, readIf_filter_head]
  dsimp only
  rw [hf3, readIf_filter_head]
  dsimp only
  rw [List.filter_nil, List.nil_append, hf4, readIf_filter_head]
  dsimp only
  rw [hf5, readIf_filter_head]
  dsimp only
  rw [hf6, readIf_filter_head]
  dsimp only
  have hc3 : List.filter (fun x => decide (x ≠ 0)) [szv / 16777216 % 256] ++ rest = rest := by
    rw [show szv / 16777216 % 256 = 0 by omega]
    rfl
  rw [hc3]
  have hofs : ((off % 256 ||| (off / 256 % 256) <<< 8) ||| (off / 65536 % 256) <<< 16) |||
      (off / 16777216 % 256) <<< 24 = off := by
    rw [lor_shiftLeft_eq_add _ _ 8 (by omega), lor_shiftLeft_eq_add _ _ 16 (by omega),
      lor_shiftLeft_eq_add _ _ 24 (by omega)]
    omega
  have hsz0 : (szv % 256 ||| (szv / 256 % 256) <<< 8) ||| (szv / 65536 % 256) <<< 16 = szv := by
    rw [lor_shiftLeft_eq_add _ _ 8 (by omega), lor_shiftLeft_eq_add _ _ 16 (by omega)]
    omega
  rw [hofs, hsz0]
  have hsize : (if szv = 0 then 65536 else szv) = size := by
    rw [hszv]
    by_cases hs : size = COPY_SPECIAL_SIZE
    · simp [hs, show COPY_SPECIAL_SIZE = 65536 from by decide]
    · simp [hs]
      omega
  rw [hsize, if_pos h3]

theorem semConcat_append (base : List Nat) (L1 L2 : List DeltaInstruction) :
    semConcat base (L1 ++ L2) = semConcat base L1 ++ semConcat base L2 := by
  simp [semConcat]

theorem semConcat_cons (base : List Nat) (i : DeltaInstruction) (L : List DeltaInstruction) :
    semConcat base (i :: L) = instrSem base i ++ semConcat base L := by
  simp [semConcat]

theorem applyLoop_nil (base tgt : List Nat) (fuel : Nat) :
    applyLoop base tgt [] fuel = some tgt := by
  cases fuel <;> rfl

theorem applyLoop_body (base : List Nat) (hb32 : base.length < 2 ^ 32) :
    ∀ (instrs : List DeltaInstruction) (fuel : Nat) (tgt : List Nat),
      (∀ i ∈ instrs, InstrWf base i) → instrs.length ≤ fuel →
      applyLoop base tgt (serializeBody instrs) fuel =
        some (tgt ++ semConcat base instrs) := by
  intro instrs
  induction instrs with
  | nil =>
    intro fuel tgt _ _
    rw [show serializeBody [] = [] from rfl, applyLoop_nil]
    simp [semConcat]
  | cons i rest ih =>
    intro fuel tgt hwf hlen
    cases fuel with
    | zero => simp at hlen
    | succ fuel =>
      rw [show serializeBody (i :: rest) = instructionBytes i ++ serializeBody rest from
        by simp [serializeBody]]
      have hwf_i := hwf i (List.mem_cons_self _ _)
      have hwf_rest : ∀ j ∈ rest, InstrWf base j :=
        fun j hj => hwf j (List.mem_cons_of_mem _ hj)
      have hlen' : rest.length ≤ fuel := by simpa using hlen
      cases i with
      | Data bs =>
        obtain ⟨hb1, hb2⟩ := hwf_i
        rw [applyLoop_data base tgt bs _ fuel hb1 hb2, ih fuel (tgt ++ bs) hwf_rest hlen',
          semConcat_cons]
        simp [instrSem]
      | Copy o sz =>
        obtain ⟨hs1, hs2, hs3⟩ := hwf_i
        rw [applyLoop_copy base tgt _ o sz fuel hs1 hs2 hs3 hb32,
          ih fuel _ hwf_rest hlen', semConcat_cons]
        simp [instrSem]

theorem add_copy_valid (st : DeltaState) (lo hi : Nat) (h1 : lo < hi)
    (h2 : hi - lo ≤ MAX_COPY_BYTES) :
    add_copy (.valid st) lo hi =
      .valid ⟨st.base_object, st.new_object, hi,
        st.instructions ++ [.Copy lo (hi - lo)]⟩ := by
  have hfc : from_copy lo hi = .ok (.Copy lo (hi - lo)) := by
    rw [from_copy, if_neg (by omega), if_neg (by omega)]
  simp [add_copy, hfc]

theorem add_data_valid (st : DeltaState) (lo hi : Nat) (h1 : lo ≤ hi)
    (h2 : hi ≤ st.new_object.length) (h3 : hi - lo ≤ MAX_DATA_BYTES) :
    add_data (.valid st) lo hi =
      .valid ⟨st.base_object, st.new_object, st.processed_till,
        st.instructions ++ [.Data (sl st.new_object lo hi)]⟩ := by
  have hfd : from_data ((st.new_object.drop lo).take (hi - lo)) =
      .ok (.Data ((st.new_object.drop lo).take (hi - lo))) := by
    rw [from_data, if_neg]
    rw [List.length_take, List.length_drop]
    omega
  rw [add_data, if_pos ⟨h1, h2⟩, hfd]
  rfl

theorem copyLoop_spec (base new : List Nat) (hb32 : base.length < 2 ^ 32) (hi : Nat)
    (hhi : hi ≤ base.length) :
    ∀ k s c st, hi - s ≤ k → s < hi → st.base_object = base → st.new_object = new →
      ∃ L, copyLoop (.valid st) s hi c =
          (.valid ⟨base, new, hi, st.instructions ++ L⟩, hi) ∧
        semConcat base L = sl base s hi ∧ ∀ ins ∈ L, InstrWf base ins := by
  intro k
  induction k with
  | zero =>
    intro s c st hk hs _ _
    exact absurd hs (by omega)
  | succ k ih =>
    intro s c st hk hs hbase hnew
    have hmc : MAX_COPY_BYTES = 2 ^ 24 - 1 := by decide
    have hsat : satAdd32 s MAX_COPY_BYTES = min (s + MAX_COPY_BYTES) (2 ^ 32 - 1) := rfl
    have hc'lb : s < min hi (satAdd32 s MAX_COPY_BYTES) := by rw [hsat]; omega
    have hc'ub : min hi (satAdd32 s MAX_COPY_BYTES) ≤ hi := by omega
    have hc'sz : min hi (satAdd32 s MAX_COPY_BYTES) - s ≤ MAX_COPY_BYTES := by
      rw [hsat]; omega
    rw [copyLoop_step _ _ _ _ hs, add_copy_valid st s _ hc'lb hc'sz]
    by_cases hlast : hi ≤ s + MAX_COPY_BYTES
    · have hc'hi : min hi (satAdd32 s MAX_COPY_BYTES) = hi := by rw [hsat]; omega
      rw [copyLoop_stop _ _ _ _ (by omega), hc'hi]
      refine ⟨[.Copy s (hi - s)], by rw [hbase, hnew], ?_, ?_⟩
      · simp [semConcat, instrSem, sl]
      · intro ins hins
        simp at hins
        rw [hins]
        exact ⟨by omega, by omega, by omega⟩
    · have hc'eq : min hi (satAdd32 s MAX_COPY_BYTES) = s + MAX_COPY_BYTES := by
        rw [hsat]; omega
      rw [hc'eq]
      obtain ⟨L', hrun, hsem, hwf⟩ := ih (s + MAX_COPY_BYTES) (s + MAX_COPY_BYTES)
        ⟨st.base_object, st.new_object, s + MAX_COPY_BYTES,
          st.instructions ++ [.Copy s (s + MAX_COPY_BYTES - s)]⟩
        (by omega) (by omega) hbase hnew
      rw [hrun]
      refine ⟨.Copy s (s + MAX_COPY_BYTES - s) :: L', by simp, ?_, ?_⟩
      · rw [semConcat_cons, hsem]
        have : instrSem base (.Copy s (s + MAX_COPY_BYTES - s)) =
            sl base s (s + MAX_COPY_BYTES) := rfl
        rw [this]
        exact sl_append base s (s + MAX_COPY_BYTES) hi (by omega) (by omega)
      · intro ins hins
        rcases List.mem_cons.mp hins with hins | hins
        · rw [hins]
          exact ⟨by omega, by omega, by omega⟩
        · exact hwf ins hins

theorem emitCopies_spec (base new : List Nat) (hb32 : base.length < 2 ^ 32)
    (lo hi : Nat) (hlo : lo < hi) (hhi : hi ≤ base.length) (st : DeltaState)
    (hbase : st.base_object = base) (hnew : st.new_object = new) :
    ∃ L, emitCopies (.valid st) lo hi = .valid ⟨base, new, hi, st.instructions ++ L⟩ ∧
      semConcat base L = sl base lo hi ∧ ∀ ins ∈ L, InstrWf base ins := by
  obtain ⟨L, hrun, hsem, hwf⟩ := copyLoop_spec base new hb32 hi hhi
    (hi - lo) lo lo st (le_refl _) hlo hbase hnew
  refine ⟨L, ?_, hsem, hwf⟩
  rw [emitCopies, hrun]
  dsimp only
  rw [if_neg (lt_irrefl hi)]

theorem dataLoop_spec (base new : List Nat) (hn32 : new.length < 2 ^ 32) (hi : Nat)
    (hhi : hi ≤ new.length) :
    ∀ k s c st, hi - s ≤ k → s < hi → st.base_object = base → st.new_object = new →
      ∃ L, dataLoop (.valid st) s hi c =
          (.valid ⟨base, new, st.processed_till, st.instructions ++ L⟩, hi) ∧
        semConcat base L = sl new s hi ∧ ∀ ins ∈ L, InstrWf base ins := by
  intro k
  induction k with
  | zero =>
    intro s c st hk hs _ _
    exact absurd hs (by omega)
  | succ k ih =>
    intro s c st hk hs hbase hnew
    have hmd : MAX_DATA_BYTES = 127 := by decide
    have hsat : satAdd32 s MAX_DATA_BYTES = min (s + MAX_DATA_BYTES) (2 ^ 32 - 1) := rfl
    have hw'lb : s < min hi (satAdd32 s MAX_DATA_BYTES) := by rw [hsat]; omega
    have hw'ub : min hi (satAdd32 s MAX_DATA_BYTES) ≤ hi := by omega
    have hw'sz : min hi (satAdd32 s MAX_DATA_BYTES) - s ≤ MAX_DATA_BYTES := by
      rw [hsat]; omega
    rw [dataLoop_step _ _ _ _ hs,
      add_data_valid st s _ (by omega) (by rw [hnew]; omega) hw'sz]
    by_cases hlast : hi ≤ s + MAX_DATA_BYTES
    · have hw'hi : min hi (satAdd32 s MAX_DATA_BYTES) = hi := by rw [hsat]; omega
      rw [dataLoop_stop _ _ _ _ (by omega), hw'hi]
      refine ⟨[.Data (sl st.new_object s hi)], by rw [hbase, hnew], ?_, ?_⟩
      · rw [semConcat_cons, hnew]
        simp [semConcat, instrSem, sl]
      · intro ins hins
        simp at hins
        rw [hins]
        refine ⟨?_, ?_⟩
        · rw [sl_length _ _ _ (by rw [hnew]; omega)]
          omega
        · rw [sl_length _ _ _ (by rw [hnew]; omega)]
          omega
    · have hw'eq : min hi (satAdd32 s MAX_DATA_BYTES) = s + MAX_DATA_BYTES := by
        rw [hsat]; omega
      rw [hw'eq]
      obtain ⟨L', hrun, hsem, hwf⟩ := ih (s + MAX_DATA_BYTES) (s + MAX_DATA_BYTES)
        ⟨st.base_object, st.new_object, st.processed_till,
          st.instructions ++ [.Data (sl st.new_object s (s + MAX_DATA_BYTES))]⟩
        (by omega) (by omega) hbase hnew
      rw [hrun]
      refine ⟨.Data (sl st.new_object s (s + MAX_DATA_BYTES)) :: L', by simp, ?_, ?_⟩
      · rw [semConcat_cons, hsem]
        have : instrSem base (.Data (sl st.new_object s (s + MAX_DATA_BYTES))) =
            sl new s (s + MAX_DATA_BYTES) := by rw [hnew]; rfl
        rw [this]
        exact sl_append new s (s + MAX_DATA_BYTES) hi (by omega) (by omega)
      · intro ins hins
        rcases List.mem_cons.mp hins with hins | hins
        · rw [hins]
          refine ⟨?_, ?_⟩
          · rw [hnew, sl_length _ _ _ (by omega)]
            omega
          · rw [hnew, sl_length _ _ _ (by omega)]
            omega
        · exact hwf ins hins

theorem emitDatas_spec (base new : List Nat) (hn32 : new.length < 2 ^ 32)
    (lo hi : Nat) (hlo : lo ≤ hi) (hhi : hi ≤ new.length) (st : DeltaState)
    (hbase : st.base_object = base) (hnew : st.new_object = new) :
    ∃ L, emitDatas (.valid st) lo hi =
        .valid ⟨base, new, st.processed_till, st.instructions ++ L⟩ ∧
      semConcat base L = sl new lo hi ∧ ∀ ins ∈ L, InstrWf base ins := by
  by_cases hcase : lo < hi
  · obtain ⟨L, hrun, hsem, hwf⟩ := dataLoop_spec base new hn32 hi hhi
      (hi - lo) lo lo st (le_refl _) hcase hbase hnew
    refine ⟨L, ?_, hsem, hwf⟩
    rw [emitDatas, hrun]
    dsimp only
    rw [if_neg (lt_irrefl hi)]
  · have hlh : lo = hi := by omega
    refine ⟨[], ?_, ?_, by intro ins hins; simp at hins⟩
    · rw [emitDatas, dataLoop_stop _ _ _ _ hcase]
      dsimp only
      rw [if_neg hcase, ← hbase, ← hnew, List.append_nil]
    · rw [hlh]
      simp [sl, semConcat]

theorem process_change_spec (base new : List Nat) (hb32 : base.length < 2 ^ 32)
    (hn32 : new.length < 2 ^ 32) (st : DeltaState) (bpos apos : Nat)
    (bs be as_ ae : Nat)
    (hbase : st.base_object = base) (hnew : st.new_object = new)
    (hproc : st.processed_till = bpos)
    (hsem : semConcat base st.instructions = new.take apos)
    (hwf : ∀ ins ∈ st.instructions, InstrWf base ins)
    (h1 : bpos ≤ bs) (h2 : bs ≤ be) (h3 : be ≤ base.length)
    (h4 : apos ≤ as_) (h5 : as_ ≤ ae) (h6 : ae ≤ new.length)
    (h7 : bs - bpos = as_ - apos) (h8 : sl base bpos bs = sl new apos as_) :
    ∃ st', process_change (.valid st) (bs, be) (as_, ae) = .valid st' ∧
      st'.base_object = base ∧ st'.new_object = new ∧ st'.processed_till = be ∧
      semConcat base st'.instructions = new.take ae ∧
      ∀ ins ∈ st'.instructions, InstrWf base ins := by
  rw [process_change]
  dsimp only
  by_cases heq : bs = bpos
  · have hc : compare bs st.processed_till = .eq := by
      rw [Nat.compare_eq_eq, hproc, heq]
    rw [hc]
    have hasapos : as_ = apos := by omega
    obtain ⟨L, hrun, hsemL, hwfL⟩ :=
      emitDatas_spec base new hn32 as_ ae h5 h6 st hbase hnew
    rw [hrun, update_processed_till]
    dsimp only
    refine ⟨_, rfl, rfl, rfl, rfl, ?_, ?_⟩
    · rw [semConcat_append, hsem, hsemL, hasapos]
      exact take_append_sl new apos ae (by omega)
    · intro ins hins
      rcases List.mem_append.mp hins with h | h
      · exact hwf ins h
      · exact hwfL ins h
  · have hgt : bpos < bs := by omega
    have hc : compare bs st.processed_till = .gt := by
      rw [Nat.compare_eq_gt, hproc]
      exact hgt
    rw [hc, hproc]
    obtain ⟨L1, hrun1, hsem1, hwf1⟩ :=
      emitCopies_spec base new hb32 bpos bs hgt (by omega) st hbase hnew
    rw [hrun1]
    obtain ⟨L2, hrun2, hsem2, hwf2⟩ :=
      emitDatas_spec base new hn32 as_ ae h5 h6
        ⟨base, new, bs, st.instructions ++ L1⟩ rfl rfl
    rw [hrun2, update_processed_till]
    dsimp only
    refine ⟨_, rfl, rfl, rfl, rfl, ?_, ?_⟩
    · rw [semConcat_append, semConcat_append, hsem, hsem1, hsem2, h8,
        take_append_sl new apos as_ h4, take_append_sl new as_ ae h5]
    · intro ins hins
      rcases List.mem_append.mp hins with h | h
      · rcases List.mem_append.mp h with ha | hb
        · exact hwf ins ha
        · exact hwf1 ins hb
      · exact hwf2 ins h

theorem run_spec (base new : List Nat) (hb32 : base.length < 2 ^ 32)
    (hn32 : new.length < 2 ^ 32) :
    ∀ (events : List ((Nat × Nat) × (Nat × Nat))) (st : DeltaState) (bpos apos : Nat),
      DiffOk base new bpos apos events →
      st.base_object = base → st.new_object = new → st.processed_till = bpos →
      semConcat base st.instructions = new.take apos →
      (∀ ins ∈ st.instructions, InstrWf base ins) →
      ∃ st' apos', events.foldl stepChange (.valid st) = .valid st' ∧
        st'.base_object = base ∧ st'.new_object = new ∧
        st'.processed_till ≤ base.length ∧ apos' ≤ new.length ∧
        base.drop st'.processed_till = new.drop apos' ∧
        semConcat base st'.instructions = new.take apos' ∧
        ∀ ins ∈ st'.instructions, InstrWf base ins := by
  intro events
  induction events with
  | nil =>
    intro st bpos apos hdiff hbase hnew hproc hsem hwf
    obtain ⟨hd1, hd2, hd3⟩ := hdiff
    exact ⟨st, apos, rfl, hbase, hnew, by omega, hd2, by rw [hproc]; exact hd3, hsem, hwf⟩
  | cons ev rest ih =>
    intro st bpos apos hdiff hbase hnew hproc hsem hwf
    obtain ⟨⟨bs, be⟩, as_, ae⟩ := ev
    obtain ⟨h1, h2, h3, h4, h5, h6, h7, h8, hrest⟩ := hdiff
    obtain ⟨st1, hrun, hb1, hn1, hp1, hsem1, hwf1⟩ :=
      process_change_spec base new hb32 hn32 st bpos apos bs be as_ ae
        hbase hnew hproc hsem hwf h1 h2 h3 h4 h5 h6 h7 h8
    rw [List.foldl_cons, stepChange, hrun]
    exact ih st1 be ae hrest hb1 hn1 hp1 hsem1 hwf1

theorem finish_spec (base new : List Nat) (hb32 : base.length < 2 ^ 32)
    (st : DeltaState) (hbase : st.base_object = base) (hnew : st.new_object = new)
    (hple : st.processed_till ≤ base.length) (apos : Nat) (hap : apos ≤ new.length)
    (hdrop : base.drop st.processed_till = new.drop apos)
    (hsem : semConcat base st.instructions = new.take apos)
    (hwf : ∀ ins ∈ st.instructions, InstrWf base ins) :
    ∃ st', finishDelta (.valid st) = some (.ok st') ∧
      semConcat base st'.instructions = new ∧
      ∀ ins ∈ st'.instructions, InstrWf base ins := by
  have hmod : st.base_object.length % 2 ^ 32 = base.length := by
    rw [hbase, Nat.mod_eq_of_lt hb32]
  rw [finishDelta, hmod]
  by_cases hend : st.processed_till = base.length
  · have hc : compare base.length st.processed_till = .eq := by
      rw [Nat.compare_eq_eq, hend]
    rw [hc]
    refine ⟨st, rfl, ?_, hwf⟩
    rw [hsem]
    have hnil : new.drop apos = [] := by
      rw [← hdrop, hend, List.drop_length]
    have : new.length ≤ apos := List.drop_eq_nil_iff.mp hnil
    exact List.take_of_length_le this
  · have hlt : st.processed_till < base.length := by omega
    have hc : compare base.length st.processed_till = .gt := by
      rw [Nat.compare_eq_gt]
      exact hlt
    rw [hc]
    obtain ⟨L, hrun, hsemL, hwfL⟩ := emitCopies_spec base new hb32
      st.processed_till base.length hlt (le_refl _) st hbase hnew
    rw [hrun]
    refine ⟨_, rfl, ?_, ?_⟩
    · rw [semConcat_append, hsem, hsemL, sl_to_end, hdrop]
      exact List.take_append_drop apos new
    · intro ins hins
      rcases List.mem_append.mp hins with h | h
      · exact hwf ins h
      · exact hwfL ins h

theorem serializeBody_length_ge (instrs : List DeltaInstruction) :
    instrs.length ≤ (serializeBody instrs).length := by
  induction instrs with
  | nil => simp [serializeBody]
  | cons i rest ih =>
    rw [show serializeBody (i :: rest) = instructionBytes i ++ serializeBody rest from
      by simp [serializeBody]]
    rw [List.length_append, List.length_cons]
    have h1 : 1 ≤ (instructionBytes i).length := by
      cases i <;> simp [instructionBytes]
    omega

/-- C1: whenever the change events satisfy the diff-engine contract
(`DiffOk`) and generation succeeds, applying the serialized instruction
body to the base object with the Git pack-delta apply procedure
reconstructs the new object byte for byte.  (Both objects are below the
format's 4 GB bound.)  Under `DiffOk` generation in fact always
succeeds, which the theorem also exhibits. -/
theorem generate_roundtrip (base new : List Nat)
    (events : List ((Nat × Nat) × (Nat × Nat)))
    (hb32 : base.length < 2 ^ 32) (hn32 : new.length < 2 ^ 32)
    (hdiff : DiffOk base new 0 0 events) :
    ∃ st, generateDelta base new events = some (.ok st) ∧
      applyDelta base (serializeBody st.instructions) = some new := by
  obtain ⟨st', apos', hfold, hbase, hnew, hple, hap, hdrop, hsem, hwf⟩ :=
    run_spec base new hb32 hn32 events ⟨base, new, 0, []⟩ 0 0 hdiff rfl rfl rfl
      (by simp [semConcat]) (by intro i h; simp at h)
  rw [generateDelta, hfold]
  obtain ⟨st'', hfin, hsem'', hwf''⟩ :=
    finish_spec base new hb32 st' hbase hnew hple apos' hap hdrop hsem hwf
  refine ⟨st'', hfin, ?_⟩
  rw [applyDelta, applyLoop_body base hb32 st''.instructions _ [] hwf''
    (serializeBody_length_ge _), hsem'']
  rfl

/-- C1 witness: a concrete diff (one changed byte) round-trips. -/
theorem generate_roundtrip_witness :
    ∃ st, generateDelta [10, 20, 30] [10, 99, 30] [((1, 2), (1, 2))] = some (.ok st) ∧
      applyDelta [10, 20, 30] (serializeBody st.instructions) = some [10, 99, 30] :=
  generate_roundtrip [10, 20, 30] [10, 99, 30] [((1, 2), (1, 2))] (by decide) (by decide)
    ⟨by decide, by decide, by decide, by decide, by decide, by decide, by decide, rfl,
      by decide, by decide, rfl⟩

/-! ### Cache coordinator lemmas -/

theorem gmc_eq {K V : Type} (s : EStore K V) (tier : List (String × V))
    (pairs : List (K × String))
    (hr : ∀ ck, s.cachelib_read_error ck = none) :
    get_multiple_from_cachelib s tier pairs =
      .ok (pairs.filterMap (fun e => (alookup tier e.2).map (fun v => (e.1, v))),
           pairs.filter (fun e => (alookup tier e.2).isNone)) := by
  induction pairs with
  | nil => rfl
  | cons p rest ih =>
    obtain ⟨k, ck⟩ := p
    rw [get_multiple_from_cachelib, hr ck, ih]
    cases hlk : alookup tier ck <;>
      simp [hlk, List.filterMap_cons, List.filter_cons]

theorem gmm_eq {K V : Type} (s : EStore K V)
    (triples : List (K × String × String)) :
    get_multiple_from_memcache s triples =
      (triples.filterMap (fun e =>
          (classifyMc s e.2.2).map (fun v => (e.1, (v, e.2.1)))),
       triples.filter (fun e => (classifyMc s e.2.2).isNone)) := by
  induction triples with
  | nil => rfl
  | cons t rest ih =>
    obtain ⟨k, ck, mk⟩ := t
    rw [get_multiple_from_memcache, ih]
    cases hmf : mcFetchOne s mk with
    | ok v =>
      have hcl : classifyMc s mk = some v := by rw [classifyMc, hmf]
      simp [hcl, List.filterMap_cons, List.filter_cons]
    | error e =>
      have hcl : classifyMc s mk = none := by rw [classifyMc, hmf]
      simp [hcl, List.filterMap_cons, List.filter_cons]

theorem findKeyMapping_isSome {K : Type} [DecidableEq K]
    (triples : List (K × String × String)) (k : K)
    (h : k ∈ triples.map (fun e => e.1)) :
    ∃ p, findKeyMapping triples k = some p := by
  induction triples with
  | nil => simp at h
  | cons t rest ih =>
    obtain ⟨k', ck, mk⟩ := t
    rw [findKeyMapping]
    by_cases hk : k' = k
    · exact ⟨_, by rw [if_pos hk]⟩
    · rw [if_neg hk]
      apply ih
      simp at h
      rcases h with h | h
      · exact absurd h.symm hk
      · simpa using h

theorem mapKeyEntries_isSome {K V : Type} [DecidableEq K]
    (triples : List (K × String × String)) (m : List (K × V))
    (h : ∀ p ∈ m, p.1 ∈ triples.map (fun e => e.1)) :
    ∃ entries, mapKeyEntries triples m = some entries := by
  induction m with
  | nil => exact ⟨[], rfl⟩
  | cons p rest ih =>
    obtain ⟨q, hq⟩ := findKeyMapping_isSome triples p.1 (h p (List.mem_cons_self _ _))
    obtain ⟨es, hes⟩ := ih (fun x hx => h x (List.mem_cons_of_mem _ hx))
    refine ⟨(q.1, q.2, p.2) :: es, ?_⟩
    rw [mapKeyEntries, hq, hes]
    rfl

/-- C3 counterexample: a store whose fast-tier batched read fails while
its backing store never fails; `get_or_fill` returns an error anyway,
with the "Error reading from cachelib" context of lib.rs line 116. -/
theorem get_or_fill_cachelib_error_escalates :
    (get_or_fill { storeB with cachelib_read_error := fun _ => some "boom" }
        [] [0]).result = some (.error "Error reading from cachelib: boom") ∧
    ({ storeB with cachelib_read_error := fun _ => some "boom" } :
        EStore Nat Nat).get_from_db =
      fun ks => .ok (ks.map (fun k => (k, k + 100))) :=
  ⟨rfl, rfl⟩

/-- C3 amended: a fast-tier *write* failure never escalates (`set_cached`
results are discarded), but a fast-tier batched *read* error is
propagated with the "Error reading from cachelib" context; whenever the
fast-tier read reports no error and the backing store succeeds (returning
only requested keys), `get_or_fill` returns `Ok`, whatever the shared
tier does. -/
theorem get_or_fill_ok_of_reads_ok {K V : Type} [DecidableEq K] (s : EStore K V)
    (tier : List (String × V)) (keys : List K)
    (hr : ∀ ck, s.cachelib_read_error ck = none)
    (hdb : ∀ ks, ∃ m, s.get_from_db ks = .ok m ∧ ∀ p ∈ m, p.1 ∈ ks) :
    ∃ r, (get_or_fill s tier keys).result = some (.ok r) := by
  rw [get_or_fill, gmc_eq s tier _ hr]
  dsimp only
  rw [gmm_eq]
  dsimp only
  by_cases hemp : (((keys.map (fun k => (k, s.get_cache_key k))).filter
      (fun e => (alookup tier e.2).isNone)).map
        (fun e => (e.1, e.2, s.keygen e.2))).filter
      (fun e => (classifyMc s e.2.2).isNone) |>.isEmpty
  · rw [if_pos hemp]
    exact ⟨_, rfl⟩
  · rw [if_neg hemp]
    obtain ⟨m, hm, hsub⟩ := hdb _
    rw [hm]
    dsimp only
    obtain ⟨entries, hent⟩ := mapKeyEntries_isSome _ m hsub
    rw [hent]
    dsimp only
    exact ⟨_, rfl⟩

/-- C3 amended witness: a concrete store with healthy reads yields `Ok`. -/
theorem get_or_fill_ok_of_reads_ok_witness :
    ∃ r, (get_or_fill storeB [] [0]).result = some (.ok r) :=
  get_or_fill_ok_of_reads_ok storeB [] [0] (fun _ => rfl)
    (fun ks => ⟨ks.map (fun k => (k, k + 100)), rfl, by
      intro p hp
      simp at hp
      obtain ⟨a, ha, hpe⟩ := hp
      rw [← hpe]
      exact ha⟩)

theorem storeKeys_eq {K V : Type} (s : EStore K V) (tier : List (String × V))
    (keys : List K) :
    ((((keys.map (fun k => (k, s.get_cache_key k))).filter
        (fun e => (alookup tier e.2).isNone)).map
          (fun e => (e.1, e.2, s.keygen e.2))).filter
        (fun e => (classifyMc s e.2.2).isNone)).map (fun e => e.1) =
      keys.filter (fun k => (alookup tier (s.get_cache_key k)).isNone &&
        (classifyMc s (s.keygen (s.get_cache_key k))).isNone) := by
  induction keys with
  | nil => rfl
  | cons k rest ih =>
    simp only [List.map_cons, List.filter_cons]
    by_cases h1 : (alookup tier (s.get_cache_key k)).isNone <;>
      by_cases h2 : (classifyMc s (s.keygen (s.get_cache_key k))).isNone <;>
        simp [h1, h2, ih]

/-- C5: the backing store is called at most once, and exactly with the
keys that were found in neither the fast tier nor the shared tier; when
that set is empty no call is made, and on an empty key set `get_or_fill`
returns the empty map without any backing-store call. -/
theorem get_from_db_called_once_with_misses {K V : Type} [DecidableEq K]
    (s : EStore K V) (tier : List (String × V)) (keys : List K)
    (hr : ∀ ck, s.cachelib_read_error ck = none) :
    ((get_or_fill s tier keys).dbCalls =
      if (keys.filter (fun k => (alookup tier (s.get_cache_key k)).isNone &&
            (classifyMc s (s.keygen (s.get_cache_key k))).isNone)).isEmpty
      then []
      else [keys.filter (fun k => (alookup tier (s.get_cache_key k)).isNone &&
            (classifyMc s (s.keygen (s.get_cache_key k))).isNone)]) ∧
    (get_or_fill s tier []).result = some (.ok []) ∧
    (get_or_fill s tier []).dbCalls = [] := by
  refine ⟨?_, rfl, rfl⟩
  rw [get_or_fill, gmc_eq s tier _ hr]
  dsimp only
  rw [gmm_eq]
  dsimp only
  set T := (((keys.map (fun k => (k, s.get_cache_key k))).filter
      (fun e => (alookup tier e.2).isNone)).map
        (fun e => (e.1, e.2, s.keygen e.2))).filter
      (fun e => (classifyMc s e.2.2).isNone) with hTdef
  have hkeyeq := storeKeys_eq s tier keys
  rw [← hTdef] at hkeyeq
  have hmapempty : (T.map (fun e => e.1)).isEmpty = T.isEmpty := by
    cases T <;> rfl
  have hiff : (keys.filter (fun k => (alookup tier (s.get_cache_key k)).isNone &&
      (classifyMc s (s.keygen (s.get_cache_key k))).isNone)).isEmpty = T.isEmpty := by
    rw [← hkeyeq, hmapempty]
  by_cases hemp : T.isEmpty
  · rw [if_pos hemp, if_pos (by rw [hiff]; exact hemp)]
  · rw [if_neg hemp, if_neg (by rw [hiff]; exact hemp)]
    split
    · dsimp only
      rw [hkeyeq]
    · split <;> (dsimp only; rw [hkeyeq])

/-- C5 witness: one key, empty tiers, missing shared tier: exactly one
backing-store call with exactly that key; the empty key set makes none. -/
theorem get_from_db_called_once_with_misses_witness :
    (get_or_fill storeB [] [5]).dbCalls = [[5]] ∧
    (get_or_fill storeB [] ([] : List Nat)).result = some (.ok []) := by
  constructor
  · have h := (get_from_db_called_once_with_misses storeB [] [5] (fun _ => rfl)).1
    rw [h]
    rfl
  · exact (get_from_db_called_once_with_misses storeB [] [] (fun _ => rfl)).2.1

theorem gmc_congr {K V : Type} (s s' : EStore K V)
    (h6 : s'.cachelib_read_error = s.cachelib_read_error)
    (tier : List (String × V)) :
    ∀ pairs, get_multiple_from_cachelib s' tier pairs =
      get_multiple_from_cachelib s tier pairs := by
  intro pairs
  induction pairs with
  | nil => rfl
  | cons p rest ih =>
    obtain ⟨k, ck⟩ := p
    simp only [get_multiple_from_cachelib, h6, ih]

theorem gmm_congr {K V : Type} (s s' : EStore K V)
    (hclass : ∀ mk, classifyMc s' mk = classifyMc s mk) :
    ∀ triples, get_multiple_from_memcache s' triples =
      get_multiple_from_memcache s triples := by
  intro triples
  rw [gmm_eq, gmm_eq]
  simp only [hclass]

theorem fmc_congr {K V : Type} (s s' : EStore K V)
    (h7 : s'.cachelib_set_ok = s.cachelib_set_ok) (tier : List (String × V)) :
    ∀ entries, fill_multiple_cachelib s' tier entries =
      fill_multiple_cachelib s tier entries := by
  intro entries
  induction entries with
  | nil => rfl
  | cons e rest ih =>
    obtain ⟨ck, ttl, v⟩ := e
    cases ttl with
    | NoTtl => simp only [fill_multiple_cachelib, h7, ih]
    | Ttl d => simp only [fill_multiple_cachelib, ih]

theorem fmm_congr {K V : Type} (s s' : EStore K V)
    (h5 : s'.serializeV = s.serializeV)
    (h8 : s'.memcache_max_size = s.memcache_max_size) :
    ∀ entries, fill_multiple_memcache s' entries =
      fill_multiple_memcache s entries := by
  intro entries
  induction entries with
  | nil => rfl
  | cons e rest ih =>
    obtain ⟨mk, ttl, v⟩ := e
    simp only [fill_multiple_memcache, h5, h8, ih]

theorem fcbk_congr {K V : Type} (s s' : EStore K V)
    (h3 : s'.cache_determinator = s.cache_determinator)
    (h5 : s'.serializeV = s.serializeV)
    (h7 : s'.cachelib_set_ok = s.cachelib_set_ok)
    (h8 : s'.memcache_max_size = s.memcache_max_size)
    (tier : List (String × V)) :
    ∀ data, fill_caches_by_key s' tier data = fill_caches_by_key s tier data := by
  intro data
  rw [fill_caches_by_key, fill_caches_by_key]
  simp only [h3, fmc_congr s s' h7 tier, fmm_congr s s' h5 h8]

/-- C4: shared-tier outcomes never fail `get_or_fill`, and the whole
observable outcome (returned map, fast-tier contents, submitted
shared-tier writes, backing-store calls) depends on the shared-tier read
path only through the per-key hit/miss classification `classifyMc`, under
which an internal memcache error, a missing value and a failed
deserialization are all exactly a miss (so such keys proceed to the
backing-store lookup); shared-tier write outcomes are discarded by the
source and do not appear in the model at all. -/
theorem memcache_outcomes_only_classify {K V : Type} [DecidableEq K]
    (s s' : EStore K V) (tier : List (String × V)) (keys : List K)
    (h1 : s'.get_cache_key = s.get_cache_key) (h2 : s'.keygen = s.keygen)
    (h3 : s'.cache_determinator = s.cache_determinator)
    (h4 : s'.get_from_db = s.get_from_db) (h5 : s'.serializeV = s.serializeV)
    (h6 : s'.cachelib_read_error = s.cachelib_read_error)
    (h7 : s'.cachelib_set_ok = s.cachelib_set_ok)
    (h8 : s'.memcache_max_size = s.memcache_max_size)
    (hclass : ∀ mk, classifyMc s' mk = classifyMc s mk) :
    get_or_fill s' tier keys = get_or_fill s tier keys := by
  rw [get_or_fill, get_or_fill]
  simp only [h1, h2, h3, h4, h5, h6, h7, h8, gmc_congr s s' h6 tier,
    gmm_congr s s' hclass, fmc_congr s s' h7 tier, fcbk_congr s s' h3 h5 h7 h8]

/-- C4 witness: a store whose shared tier always reports an internal
error behaves identically to one whose shared tier always misses. -/
theorem memcache_outcomes_only_classify_witness :
    get_or_fill { storeB with memcache_get := fun _ => .error () } [] [0] =
      get_or_fill storeB [] [0] :=
  memcache_outcomes_only_classify storeB
    { storeB with memcache_get := fun _ => .error () } [] [0]
    rfl rfl rfl rfl rfl rfl rfl rfl (fun _ => rfl)

/-- C9: a value fetched from the backing store whose serialized length
reaches the shared-tier maximum is not submitted to the shared tier, but
is still written to the fast tier (its disposition permitting) and is
still present in the returned map; likewise for `fill_cache`. -/
theorem large_value_skips_memcache {K V : Type} [DecidableEq K]
    (s : EStore K V) (tier : List (String × V)) (k : K) (v : V)
    (hr : ∀ ck, s.cachelib_read_error ck = none)
    (hmiss : alookup tier (s.get_cache_key k) = none)
    (hmc : classifyMc s (s.keygen (s.get_cache_key k)) = none)
    (hdb : s.get_from_db [k] = .ok [(k, v)])
    (hdet : s.cache_determinator v = .Cache .NoTtl)
    (hset : s.cachelib_set_ok (s.get_cache_key k) = true)
    (hbig : s.memcache_max_size ≤ (s.serializeV v).length) :
    (get_or_fill s tier [k]).result = some (.ok [(k, v)]) ∧
    alookup (get_or_fill s tier [k]).cachelib (s.get_cache_key k) = some v ∧
    (get_or_fill s tier [k]).mcWrites = [] ∧
    (fill_cacheM s tier [(k, v)]).2 = [] ∧
    alookup (fill_cacheM s tier [(k, v)]).1 (s.get_cache_key k) = some v := by
  have hfill : fill_caches_by_key s tier
      [(s.get_cache_key k, s.keygen (s.get_cache_key k), v)] =
      ((s.get_cache_key k, v) :: tier, []) := by
    rw [fill_caches_by_key]
    simp only [List.filterMap_cons, List.filterMap_nil, hdet, List.map_cons, List.map_nil]
    rw [fill_multiple_cachelib, fill_multiple_cachelib, if_pos hset,
      fill_multiple_memcache, if_pos (by omega)]
    rfl
  have hmain : get_or_fill s tier [k] =
      ⟨some (.ok [(k, v)]), (s.get_cache_key k, v) :: tier, [], [[k]]⟩ := by
    rw [get_or_fill, gmc_eq s tier _ hr]
    dsimp only
    simp only [List.map_cons, List.map_nil, List.filterMap_cons, List.filterMap_nil,
      hmiss, Option.map_none', List.filter_cons, List.filter_nil, Option.isNone_none,
      if_true]
    rw [gmm_eq]
    simp only [List.filterMap_cons, List.filterMap_nil, hmc, Option.map_none',
      List.filter_cons, List.filter_nil, Option.isNone_none, if_true]
    rw [show (List.map (fun e => e.1)
        [(k, s.get_cache_key k, s.keygen (s.get_cache_key k))] : List K) = [k] from rfl,
      hdb]
    simp only [List.isEmpty_cons, Bool.false_eq_true, if_false, mapKeyEntries,
      findKeyMapping, if_pos, Option.map_some',
      show fill_multiple_cachelib s tier [] = tier from rfl, hfill]
    rfl
  refine ⟨by rw [hmain], by rw [hmain, alookup, if_pos rfl], by rw [hmain], ?_, ?_⟩
  · rw [fill_cacheM]
    simp only [List.map_cons, List.map_nil]
    rw [hfill]
  · rw [fill_cacheM]
    simp only [List.map_cons, List.map_nil]
    rw [hfill, alookup, if_pos rfl]

/-- C9 witness: value 107 serializes to 107 bytes ≥ ceiling 3: returned
and fast-tier cached, but never submitted to the shared tier. -/
theorem large_value_skips_memcache_witness :
    (get_or_fill storeB [] [7]).result = some (.ok [(7, 107)]) ∧
    (get_or_fill storeB [] [7]).mcWrites = [] ∧
    alookup (get_or_fill storeB [] [7]).cachelib (storeB.get_cache_key 7) = some 107 := by
  have h := large_value_skips_memcache storeB [] 7 107 (fun _ => rfl) rfl rfl rfl rfl rfl
    (by decide)
  exact ⟨h.1, h.2.2.1, h.2.1⟩
